import Mathlib

/-!
Verification development for `npc_ephys` (`src/npc_ephys/openephys.py`).

The Python source is shallowly embedded: strings become `List Char`,
byte buffers become `List Nat` (each entry one byte), filesystem contents
become explicit lists or functions supplied as parameters, generators
become lists, and code that can raise becomes `Except`/`Option`.
External collaborators (the barcode estimator, `npc_io` size/checksum
helpers, file listings) are parameters of the embedded functions, exactly
as the spec treats them (out-of-scope black boxes).
-/

namespace NpcEphys

/-! ### Python string primitives, embedded over `List Char`.

`splitFirst sep s` finds the first occurrence of `sep` in `s` (scanning
left to right) and returns the text before and after it, mirroring one
step of Python `str.split`/`str.replace` occurrence scanning. -/

def splitFirst (sep : List Char) : List Char → Option (List Char × List Char)
  | [] => if sep.isPrefixOf ([] : List Char) then some ([], []) else none
  | c :: rest =>
    if sep.isPrefixOf (c :: rest) then some ([], (c :: rest).drop sep.length)
    else (splitFirst sep rest).map (fun pr => (c :: pr.1, pr.2))

/-- `sep` occurs somewhere in `s`. -/
def occursIn (sep s : List Char) : Bool := (splitFirst sep s).isSome

/-- Python `s.split(sep)`: repeatedly split at the first occurrence.
Fuel-based so the kernel can evaluate it; `s.length + 1` units of fuel
always suffice for a non-empty separator because each step consumes at
least one character. -/
def pySplitAux (sep : List Char) : Nat → List Char → List (List Char)
  | 0, s => [s]
  | fuel + 1, s =>
    match splitFirst sep s with
    | none => [s]
    | some (pre, post) => pre :: pySplitAux sep fuel post

def pySplit (sep s : List Char) : List (List Char) := pySplitAux sep (s.length + 1) s

/-- Python `s.replace(old, new)`: replace all non-overlapping occurrences,
scanning left to right.  Fuel-based like `pySplit`. -/
def pyReplaceAux (old new : List Char) : Nat → List Char → List Char
  | 0, s => s
  | fuel + 1, s =>
    match splitFirst old s with
    | none => s
    | some (pre, post) => pre ++ new ++ pyReplaceAux old new fuel post

def pyReplace (old new s : List Char) : List Char := pyReplaceAux old new (s.length + 1) s

/-- Python `s.strip(cs)`: remove characters of `cs` from both ends. -/
def pyStrip (cs : List Char) (s : List Char) : List Char :=
  ((s.dropWhile (fun c => cs.contains c)).reverse.dropWhile (fun c => cs.contains c)).reverse

/-- Python `str.splitlines` for text whose line terminator is `\n` (the
terminator of the acquisition logs this code reads): split at every
newline, except that a trailing newline does not produce a final empty
line, and the empty string has no lines. -/
def pySplitLines (s : List Char) : List (List Char) :=
  if s.isEmpty then []
  else
    let parts := pySplit (['\n']) s
    if s.getLastD ' ' = '\n' then parts.dropLast else parts

/-- Numeric value of a digit string (most significant first). -/
def digitsVal (ds : List Char) : Nat :=
  ds.foldl (fun n c => 10 * n + (c.toNat - ('0').toNat)) 0

def pyIntWs : List Char := [' ', '\t', '\n', '\r']

/-- Python `int(s)` on decimal literals: strip whitespace, optional sign,
then a non-empty run of digits; anything else raises (`none`).
(Underscore digit grouping is not modelled; it does not occur in the
acquisition logs.) -/
def pyInt (s : List Char) : Option Int :=
  match pyStrip pyIntWs s with
  | '-' :: ds =>
    if !ds.isEmpty && ds.all Char.isDigit then some (-(digitsVal ds : Int)) else none
  | '+' :: ds =>
    if !ds.isEmpty && ds.all Char.isDigit then some ((digitsVal ds : Int)) else none
  | ds =>
    if !ds.isEmpty && ds.all Char.isDigit then some ((digitsVal ds : Int)) else none

/-! ### `get_sync_messages_data` (openephys.py lines 28-64)

Each non-header line of `sync_messages.txt` is mapped to
`(label(line), start(line), rate(line))` exactly as in the source:

    label = "".join(line.split("Start Time for ")[-1].split(" @")[0]
                    .replace(") - ", ".").replace(" (", "-"))
    start = int(line.strip(" ").split("Hz:")[-1])
    rate  = int(line.split("@ ")[-1].split(" Hz")[0])

(`"".join` over a `str` is the identity, so it is not modelled.)
The Python function builds a dict keyed by label (so a duplicate label
would overwrite, last wins); the embedding keeps the per-line association
list in order. -/

def emptyStr : String := ""

def sTFs : List Char := "Start Time for ".toList
def atSep : List Char := " @".toList
def atSpaceSep : List Char := "@ ".toList
def hzColonSep : List Char := "Hz:".toList
def spaceHzSep : List Char := " Hz".toList
def parenDashSep : List Char := ") - ".toList
def spaceParenSep : List Char := " (".toList
def dotStr : List Char := ".".toList
def dashStr : List Char := "-".toList
def at3 : List Char := " @ ".toList
def hz5 : List Char := " Hz: ".toList

/-- The label normalisation applied by `label`: first `") - "` becomes
`"."`, then `" ("` becomes `"-"`. -/
def normalizeLabel (s : List Char) : List Char :=
  pyReplace spaceParenSep dashStr (pyReplace parenDashSep dotStr s)

def smLabel (line : List Char) : List Char :=
  normalizeLabel ((pySplit atSep ((pySplit sTFs line).getLastD [])).headD [])

def smStart (line : List Char) : Option Int :=
  pyInt ((pySplit hzColonSep (pyStrip ([' ']) line)).getLastD [])

def smRate (line : List Char) : Option Int :=
  pyInt ((pySplit spaceHzSep ((pySplit atSpaceSep line).getLastD [])).headD [])

/-- Embedded `get_sync_messages_data`: the first line of the file is
dropped (header), every later line contributes one entry. -/
def get_sync_messages_data (text : String) : List (String × Option Int × Option Int) :=
  ((pySplitLines text.toList).drop 1).map
    (fun line => (String.mk (smLabel line), smStart line, smRate line))

/-! ### `read_array_range_from_npy` (openephys.py lines 142-167)

Byte buffers are `List Nat` (one entry per byte).  `path.fs.read_bytes
(path, start, end)` is the byte range `[start, end)`.  The textual header
parse (`eval` of the dictionary literal plus `np.dtype(...).itemsize`,
performed by the Python standard library and numpy) is abstracted as a
`parse` parameter from the raw header bytes to the declared shape and
element size. -/

/-- `int.from_bytes(bytes, "little")`. -/
def leDec : List Nat → Nat
  | [] => 0
  | b :: bs => b + 256 * leDec bs

/-- Little-endian encoding of `n` in `w` bytes. -/
def leEnc : Nat → Nat → List Nat
  | 0, _ => []
  | w + 1, n => (n % 256) :: leEnc w (n / 256)

/-- `fs.read_bytes(path, start, end)`: the byte range `[start, end)`. -/
def byteSlice (data : List Nat) (start stop : Nat) : List Nat :=
  (data.drop start).take (stop - start)

/-- `np.frombuffer`: reinterpret a byte buffer as consecutive elements of
`k` bytes each.  Fuel-based; `l.length` units suffice when `k > 0`. -/
def chunksOfAux (k : Nat) : Nat → List Nat → List (List Nat)
  | 0, _ => []
  | _, [] => []
  | fuel + 1, l => l.take k :: chunksOfAux k fuel (l.drop k)

def chunksOf (k : Nat) (l : List Nat) : List (List Nat) := chunksOfAux k l.length l

/-- Result of parsing the textual header: the declared `shape` tuple and
the element size derived from `descr`. -/
structure NpyHeader where
  shape : List Nat
  itemsize : Nat
deriving DecidableEq

inductive NpyError where
  | headerParseFailed
  | unsupportedShape
deriving DecidableEq

/-- Embedded `read_array_range_from_npy` for an explicit slice `[i, j)`
(the source turns an `int` argument `r` into `slice(r, r + 1)` first):
read the major version from byte 6, the header-length field from bytes
`[8, 10)` (major version 1) or `[8, 12)` (otherwise), locate the array
start after the header, and read exactly the bytes
`[array_start + i * itemsize, array_start + j * itemsize)`. -/
def read_array_range_from_npy (parse : List Nat → Option NpyHeader)
    (data : List Nat) (i j : Nat) : Except NpyError (List (List Nat)) :=
  let ver_major := leDec (byteSlice data 6 7)
  let header_len_stop := if ver_major = 1 then 10 else 12
  let header_len := leDec (byteSlice data 8 header_len_stop)
  let array_start := header_len_stop + header_len
  let header_bytes := byteSlice data header_len_stop array_start
  match parse header_bytes with
  | none => .error .headerParseFailed
  | some header =>
    if header.shape.length ≠ 1 then .error .unsupportedShape
    else
      .ok (chunksOf header.itemsize
        (byteSlice data (array_start + i * header.itemsize)
          (array_start + j * header.itemsize)))

def npyMagic : List Nat := [0x93, 0x4E, 0x55, 0x4D, 0x50, 0x59]

/-- A container in the documented single-dimension format: 6 magic bytes,
one major-version byte, one minor-version byte, the little-endian
header-length field (2 bytes wide when the major version is 1, 4 bytes
otherwise), the header text, then the raw element bytes. -/
def mkNpy (verMajor verMinor : Nat) (headerBytes : List Nat)
    (elems : List (List Nat)) : List Nat :=
  npyMagic ++ [verMajor, verMinor]
    ++ leEnc (if verMajor = 1 then 2 else 4) headerBytes.length
    ++ headerBytes ++ elems.join

/-! ### `get_single_oebin_path` / `get_superfluous_oebin_paths`
(openephys.py lines 611-649)

`path.rglob("structure*.oebin")` results are supplied as the list
`oebins` in encounter order; each entry is paired with the total size of
its containing folder (`npc_io.get_size(oebin.parent)`, external I/O).
The source picks `oebin_paths[dir_sizes.index(max(dir_sizes))]`:
`max` of a non-empty `Nat` list equals `foldl max 0`, and `.index`
returns the first position of its argument. -/

def get_single_oebin_path {α : Type} [DecidableEq α] (oebins : List (α × Nat)) : Option α :=
  match oebins with
  | [] => none
  | [o] => some o.1
  | _ =>
    let dir_sizes := oebins.map (fun o => o.2)
    let m := dir_sizes.foldl max 0
    (oebins[dir_sizes.indexOf m]?).map (fun o => o.1)

/-- `tuple(set(all_oebin_paths) - {get_single_oebin_path(path)})`; the
set difference is modelled as a filter (the paths produced by `rglob`
are distinct). -/
def get_superfluous_oebin_paths {α : Type} [DecidableEq α]
    (oebins : List (α × Nat)) : List α :=
  if oebins.length = 1 then []
  else
    match get_single_oebin_path oebins with
    | some chosen => (oebins.map (fun o => o.1)).filter (fun p => decide (p ≠ chosen))
    | none => []

/-! ### `assert_xml_files_match` / `get_merged_oebin_file`
(openephys.py lines 652-731)

A stream descriptor is an opaque JSON object carrying at least a
`folder_name`; descriptor equality is full-value equality.  A parsed
oebin file is an association list from category key (`continuous`,
`events`, `spikes`) to its descriptor list, in insertion order (JSON
object keys are distinct).  The `isinstance(oebin_data[key], list)` test
in the source is always true for these typed contents, so it is not
modelled.  `sorted(oebin_paths)` is string sorting of the paths. -/

structure Desc where
  folder_name : String
  payload : Nat
deriving DecidableEq

abbrev OebinData := List (String × List Desc)

/-- A per-node `settings.xml` file's content: `(creationDate, rest)`.
`npc_io.checksums_match` (external) is equality of full contents. -/
abbrev SettingsXml := Nat × Nat

/-- Modelled from the spec: `npc_ephys.settings_xml.get_settings_xml_data`
is code of this repository that is not under `src/`; per the spec it
parses a settings file into structured data, ignoring the known mutable
creation-date field.  Parsing `(creationDate, rest)` keeps `rest`. -/
def get_settings_xml_data (s : SettingsXml) : Nat := s.2

/-- `all(d == data[0] for d in data)` (also `checksums_match`: all files
byte-identical). -/
def allEqHead {α : Type} [DecidableEq α] : List α → Bool
  | [] => true
  | x :: xs => xs.all (fun y => y == x)

inductive MergeErr where
  | notOebin
  | settingsMismatch
  | emptyMerge
deriving DecidableEq

/-- `assert_xml_files_match`: passes when all files are checksum-identical
or, failing that, structurally identical after parsing (the parse
ignores the creation date).  The `.xml`-suffix and existence checks
always pass for the `settings.xml` paths the merge constructs. -/
def assert_xml_files_match (settings : List SettingsXml) : Bool :=
  allEqHead settings || allEqHead (settings.map get_settings_xml_data)

/-- Python `str.lower()` (the names involved are ASCII). -/
def toLowerChars (s : List Char) : List Char := s.map Char.toLower

/-- `any(p.lower() in item.get("folder_name", "").lower() for p in
exclude_probe_names)`; a `None`/empty exclusion list yields `false`
either way. -/
def excludedMatch (excl : List String) (item : Desc) : Bool :=
  excl.any (fun p => occursIn (toLowerChars p.toList) (toLowerChars item.folder_name.toList))

/-- `merged_oebin.setdefault(key, []).append(item)`: append to the first
entry with this key, or add a fresh entry at the end. -/
def appendAt (m : OebinData) (k : String) (item : Desc) : OebinData :=
  match m with
  | [] => [(k, [item])]
  | (k', l) :: rest =>
    if k' = k then (k', l ++ [item]) :: rest else (k', l) :: appendAt rest k item

/-- The inner `for item in oebin_data[key]` loop: skip items already
present (by full equality) in the merged category, skip excluded items,
append the rest. -/
def insertItems (excl : List String) (m : OebinData) (k : String) : List Desc → OebinData
  | [] => m
  | item :: rest =>
    let cur := (List.lookup k m).getD []
    let m' := if item ∈ cur then m
      else if excludedMatch excl item then m
      else appendAt m k item
    insertItems excl m' k rest

/-- One file's pass of the merge loop (`for key in oebin_data`): a
category equal (by full value) to what is already merged is skipped
wholesale, otherwise items are inserted one by one. -/
def mergeFile (excl : List String) (m : OebinData) (d : OebinData) : OebinData :=
  d.foldl (fun m e =>
    match List.lookup e.1 m with
    | some l => if l = e.2 then m else insertItems excl m e.1 e.2
    | none => insertItems excl m e.1 e.2) m

def oebinSuffix : String := ".oebin"

/-- Python `p.suffix != ".oebin"` check, as a suffix test on the path
text (pathlib's `suffix` is the final extension). -/
def pyEndsWith (suffix s : List Char) : Bool :=
  suffix.reverse.isPrefixOf s.reverse

/-- Embedded `get_merged_oebin_file`.  `fs` maps an oebin path to its
parsed contents; `settingsOf` maps an oebin path to the content of the
settings file at `oebin.parent.parent.parent / "settings.xml"`. -/
def get_merged_oebin_file (fs : String → OebinData) (settingsOf : String → SettingsXml)
    (excl : List String) (paths : List String) : Except MergeErr OebinData :=
  if paths.length = 1 then Except.ok (fs (paths.headD emptyStr))
  else if paths.any (fun p => !(pyEndsWith oebinSuffix.toList p.toList)) then
    Except.error MergeErr.notOebin
  else if !(assert_xml_files_match (paths.map settingsOf)) then
    Except.error MergeErr.settingsMismatch
  else
    let merged := (List.insertionSort (fun a b : String => a.toList ≤ b.toList) paths).foldl
      (fun m p => mergeFile excl m (fs p)) []
    if merged = [] then Except.error MergeErr.emptyMerge else Except.ok merged

/-! ### `get_ephys_timing_on_pxi` (openephys.py lines 170-237)

One recording directory's view.  The acquisition log yields one
`PXIDevEnv` per device, in log (dict) order; the filesystem reads the
loop performs — `continuous/<device>` existence, the `events/<device>`
`TTL*` glob listing, the first element of
`continuous/<device>/sample_numbers.npy` (read via
`read_array_range_from_npy` with element 0), the TTL arrays and the
optional compressed copy — are supplied as the remaining fields.
`next(events.glob("TTL*"))` with no default raises `StopIteration` when
the glob is empty; inside the generator PEP 479 surfaces it as a
`RuntimeError`, aborting the stream — embedded as `Except.error`.
When the log's reported first sample differs from `sample_numbers.npy`,
the source only logs and uses the value from `sample_numbers.npy`.
Nominal `sampling_rate` is `float(rate)`; rationals stand in for floats
(the values are integers). -/

structure PXIDevEnv where
  label : String
  startFromLog : Int
  rateFromLog : Int
  continuousExists : Bool
  ttlGlob : List String
  firstSampleNpy : Int
  ttlSampleNumbersRaw : List Int
  ttlStates : List Int
  compressed : Option String
deriving DecidableEq

structure EphysDeviceInfo where
  name : String
  ttl : String
  compressed : Option String
  ttl_sample_numbers : List Int
  ttl_states : List Int
deriving DecidableEq

structure EphysTimingInfoOnPXI where
  device : EphysDeviceInfo
  start_sample : Int
  sampling_rate : ℚ
deriving DecidableEq

inductive PXIErr where
  | noTTL
deriving DecidableEq

/-- `only_devices_including and only_devices_including.lower() not in
device.lower()` skips the device; `None` (and the falsy empty string)
disables the filter. -/
def matchesFilter (onlyIncluding : Option String) (label : String) : Bool :=
  match onlyIncluding with
  | none => true
  | some f => occursIn (toLowerChars f.toList) (toLowerChars label.toList)

def mkPXIEntry (d : PXIDevEnv) : EphysTimingInfoOnPXI :=
  { device :=
      { name := d.label
        ttl := d.ttlGlob.headD emptyStr
        compressed := d.compressed
        ttl_sample_numbers := d.ttlSampleNumbersRaw.map (fun s => s - d.firstSampleNpy)
        ttl_states := d.ttlStates }
    start_sample := d.firstSampleNpy
    sampling_rate := (d.rateFromLog : ℚ) }

def get_ephys_timing_on_pxi (devices : List PXIDevEnv) (onlyIncluding : Option String) :
    Except PXIErr (List EphysTimingInfoOnPXI) :=
  match devices with
  | [] => Except.ok []
  | d :: rest =>
    if !(matchesFilter onlyIncluding d.label) then get_ephys_timing_on_pxi rest onlyIncluding
    else if !d.continuousExists then get_ephys_timing_on_pxi rest onlyIncluding
    else
      match d.ttlGlob with
      | [] => Except.error PXIErr.noTTL
      | _ :: _ =>
        (get_ephys_timing_on_pxi rest onlyIncluding).map (fun l => mkPXIEntry d :: l)

/-! ### `get_ephys_timing_on_sync` (openephys.py lines 370-441)

The barcode extraction (`extract_barcodes_from_times`) and offset/rate
estimation (`get_probe_time_offset`) live in `npc_ephys.barcodes`, which
the spec treats as an external black box; they are parameters.  Float
values that can be NaN or infinite are modelled by `FVal` (negation is
exact for floats, and the NaN/non-finite test is the code's
`np.isnan(r) | ~np.isfinite(r)`).  `ttl_sample_numbers[-1]` on an empty
array raises `IndexError` (embedded as `Except.error`). -/

inductive FVal where
  | finite (q : ℚ)
  | nan
  | posInf
  | negInf
deriving DecidableEq

def FVal.isNan : FVal → Bool
  | nan => true
  | _ => false

def FVal.isFinite : FVal → Bool
  | finite _ => true
  | _ => false

def FVal.neg : FVal → FVal
  | finite q => finite (-q)
  | nan => nan
  | posInf => negInf
  | negInf => posInf

structure Barcodes where
  times : List ℚ
  ids : List Int
deriving DecidableEq

structure EphysTimingInfoOnSync where
  deviceName : String
  sampling_rate : FVal
  start_time : FVal
deriving DecidableEq

inductive SyncErr where
  | emptyTTL
deriving DecidableEq

/-- `ttl_sample_numbers[ttl_states > 0] / sampling_rate`. -/
def onTimes (info : EphysTimingInfoOnPXI) : List ℚ :=
  ((info.device.ttl_sample_numbers.zip info.device.ttl_states).filter
    (fun p => decide (0 < p.2))).map (fun p => (p.1 : ℚ) / info.sampling_rate)

/-- `ttl_sample_numbers[ttl_states < 0] / sampling_rate`. -/
def offTimes (info : EphysTimingInfoOnPXI) : List ℚ :=
  ((info.device.ttl_sample_numbers.zip info.device.ttl_states).filter
    (fun p => decide (p.2 < 0))).map (fun p => (p.1 : ℚ) / info.sampling_rate)

def get_ephys_timing_on_sync
    (extract : List ℚ → List ℚ → ℚ → Barcodes)
    (estimate : Barcodes → Barcodes → Nat → ℚ → FVal × FVal)
    (syncBarcodes : Barcodes)
    (devices : List EphysTimingInfoOnPXI) :
    Except SyncErr (List EphysTimingInfoOnSync) :=
  match devices with
  | [] => Except.ok []
  | info :: rest =>
    match info.device.ttl_sample_numbers.getLast? with
    | none => Except.error SyncErr.emptyTTL
    | some lastSample =>
      let ephysBarcodes := extract (onTimes info) (offTimes info)
        ((lastSample : ℚ) / info.sampling_rate)
      let est := estimate syncBarcodes ephysBarcodes 0 info.sampling_rate
      let start_time := est.1.neg
      let sampling_rate := if est.2.isNan || !est.2.isFinite
        then FVal.finite info.sampling_rate else est.2
      (get_ephys_timing_on_sync extract estimate syncBarcodes rest).map
        (fun l =>
          { deviceName := info.device.name
            sampling_rate := sampling_rate
            start_time := start_time } :: l)

/-! ### Filesystem paths as component lists

`upath.UPath` values are embedded as lists of path components
(`'top/Record Node 101/recording1'` is
`["top", "Record Node 101", "recording1"]`): `.parent` is `dropLast`,
`.name` is the last component, `p.parents` are the proper prefixes
(nearest first, ending with the empty path, pathlib's `'.'` whose name
is `''`), `path.rglob(pat)` enumerates the strict descendants of `path`
present in the directory listing `fs` whose final component matches
`pat`, and `abs.relative_to(node.parent)` drops the first
`node.length - 1` components.  `npc_io.get_size` is the external
`sizeFn`. -/

abbrev FPath := List String

def recordNodeStr : String := "Record Node"

def structureStr : String := "structure"

def oebinExt : String := ".oebin"

def datName : String := "continuous.dat"

def strOfPath (p : FPath) : String := String.intercalate "/" p

/-- `p` lies strictly below `base` in the tree (matches `base.rglob`,
whose pattern always has at least one component of its own). -/
def isStrictDescendant (base p : FPath) : Bool :=
  base.isPrefixOf p && decide (p ≠ base)

/-- Final component matches the glob `Record Node*`. -/
def isRecordNode (p : FPath) : Bool :=
  recordNodeStr.toList.isPrefixOf ((p.getLastD emptyStr).toList)

/-- Final component matches the glob `structure*.oebin` (prefix
`structure` and suffix `.oebin` cannot overlap, so no length guard is
needed). -/
def isOebinName (s : String) : Bool :=
  structureStr.toList.isPrefixOf s.toList && pyEndsWith oebinExt.toList s.toList

/-! ### `get_filtered_ephys_paths_relative_to_record_node_parents`
(openephys.py lines 509-572) -/

/-- `record_node.rglob("structure*.oebin")` paired with the size of each
manifest's containing folder, as consumed by
`get_superfluous_oebin_paths`. -/
def oebinsUnder (fs : List FPath) (sizeFn : FPath → Nat) (node : FPath) :
    List (FPath × Nat) :=
  (fs.filter (fun p => isStrictDescendant node p && isOebinName (p.getLastD emptyStr))).map
    (fun o => (o, sizeFn o.dropLast))

/-- `tuple(_.parent for _ in get_superfluous_oebin_paths(record_node))`. -/
def superfluousDirsOf (fs : List FPath) (sizeFn : FPath → Nat) (node : FPath) :
    List FPath :=
  (get_superfluous_oebin_paths (oebinsUnder fs sizeFn node)).map (fun p => p.dropLast)

/-- `any(_ in abs_path.parents for _ in superfluous_recording_dirs)`:
some superfluous dir is a proper ancestor of `p`. -/
def isSuperfluousPath (supers : List FPath) (p : FPath) : Bool :=
  supers.any (fun d => d.isPrefixOf p && decide (d ≠ p))

/-- The inner loop body for one record node.  When the node has no
`structure*.oebin` below it, `get_single_oebin_path` inside
`get_superfluous_oebin_paths` raises `FileNotFoundError`
(`Except.error`); otherwise every strict descendant not under a
superfluous recording dir is yielded with its path relative to the
node's parent. -/
def filteredUnderNode (fs : List FPath) (sizeFn : FPath → Nat) (node : FPath) :
    Except Unit (List (FPath × FPath)) :=
  if (oebinsUnder fs sizeFn node).isEmpty then Except.error ()
  else
    Except.ok (((fs.filter (fun p => isStrictDescendant node p)).filter
        (fun p => !isSuperfluousPath (superfluousDirsOf fs sizeFn node) p)).map
      (fun p => (p, p.drop (node.length - 1))))

def filteredNodesLoop (fs : List FPath) (sizeFn : FPath → Nat) :
    List FPath → Except Unit (List (FPath × FPath))
  | [] => Except.ok []
  | node :: rest =>
    match filteredUnderNode fs sizeFn node with
    | Except.error e => Except.error e
    | Except.ok pairs =>
      match filteredNodesLoop fs sizeFn rest with
      | Except.error e => Except.error e
      | Except.ok more => Except.ok (pairs ++ more)

def get_filtered_ephys_paths_relative_to_record_node_parents
    (fs : List FPath) (sizeFn : FPath → Nat) (toplevel : FPath) :
    Except Unit (List (FPath × FPath)) :=
  filteredNodesLoop fs sizeFn
    (fs.filter (fun p => isStrictDescendant toplevel p && isRecordNode p))

/-! ### `get_ephys_root` / `get_raw_ephys_subfolders`
(openephys.py lines 492-605) -/

/-- `path.parents`, nearest first, ending with the empty path. -/
def parentsOf (p : FPath) : List FPath :=
  (List.range p.length).map (fun i => p.take (p.length - 1 - i))

inductive RootErr where
  | notRecordNode
  | noParent
deriving DecidableEq

/-- `'Record Node' not in path.as_posix()` is case-sensitive on the
joined string; the parents scan lowercases both sides and looks at the
component name only; `next` on an exhausted scan raises
`StopIteration`. -/
def get_ephys_root (path : FPath) : Except RootErr FPath :=
  if !occursIn recordNodeStr.toList (strOfPath path).toList then
    Except.error RootErr.notRecordNode
  else
    match (parentsOf path).find? (fun p =>
        occursIn (toLowerChars recordNodeStr.toList)
          (toLowerChars (p.getLastD emptyStr).toList)) with
    | some p => Except.ok p.dropLast
    | none => Except.error RootErr.noParent

def sortedMarkers : List String := ["sorted", "extracted", "curated"]

/-- `any(k in f.as_posix().lower() for k in ["sorted","extracted","curated"])`. -/
def isSkippedDat (p : FPath) : Bool :=
  sortedMarkers.any (fun k => occursIn k.toList (toLowerChars (strOfPath p).toList))

/-- `path.rglob("continuous.dat")` in listing order. -/
def datFilesUnder (fs : List FPath) (path : FPath) : List FPath :=
  fs.filter (fun p => isStrictDescendant path p && decide (p.getLastD emptyStr = datName))

/-- The collection loop of `get_raw_ephys_subfolders`: skipped files are
dropped before `get_ephys_root` runs; a root error aborts the whole
call. -/
def collectRootsAux : List FPath → Except RootErr (List FPath)
  | [] => Except.ok []
  | f :: rest =>
    if isSkippedDat f then collectRootsAux rest
    else
      match get_ephys_root f with
      | Except.error e => Except.error e
      | Except.ok r =>
        match collectRootsAux rest with
        | Except.error e => Except.error e
        | Except.ok rs => Except.ok (r :: rs)

def pathLe (a b : FPath) : Prop := (strOfPath a).toList ≤ (strOfPath b).toList

instance : DecidableRel pathLe :=
  fun a b => inferInstanceAs (Decidable ((strOfPath a).toList ≤ (strOfPath b).toList))

/-- `subfolders` is a `set` (deduplicated); the optional size filter is
`npc_io.get_size(_) < min_size_gb * 1024**3` (strict); the result is
`tuple(sorted(subfolders, key=lambda s: str(s)))`. -/
def get_raw_ephys_subfolders (fs : List FPath) (sizeFn : FPath → Nat)
    (path : FPath) (min_size_gb : Option ℚ) : Except RootErr (List FPath) :=
  match collectRootsAux (datFilesUnder fs path) with
  | Except.error e => Except.error e
  | Except.ok roots =>
    let subfolders := roots.dedup
    let kept := match min_size_gb with
      | none => subfolders
      | some m => subfolders.filter (fun p => decide ((sizeFn p : ℚ) < m * 1024 ^ 3))
    Except.ok (kept.insertionSort pathLe)

/-! ### `validate_recording_folder` (openephys.py lines 734-765) -/

inductive ValidationError where
  | deviceNotFound (deviceName recordingPath : String)
  | syncValidationFailed (deviceName : String)
  | uncaught (e : PXIErr)
deriving DecidableEq

/-- `device["folder_name"].strip("/")`. -/
def deviceNameOf (device : Desc) : String :=
  String.mk (pyStrip (['/']) device.folder_name.toList)

/-- `next(get_ephys_timing_on_pxi(recording_path,
only_devices_including=device_name))`: the generator is advanced to its
first yield only, so `some` is the first device passing the filter with
its continuous folder present, `none` is `StopIteration`, and an error
raised before the first yield (missing `TTL*`) propagates. -/
def firstPXI (devices : List PXIDevEnv) (onlyIncluding : Option String) :
    Except PXIErr (Option EphysTimingInfoOnPXI) :=
  match devices with
  | [] => Except.ok none
  | d :: rest =>
    if !(matchesFilter onlyIncluding d.label) then firstPXI rest onlyIncluding
    else if !d.continuousExists then firstPXI rest onlyIncluding
    else
      match d.ttlGlob with
      | [] => Except.error PXIErr.noTTL
      | _ :: _ => Except.ok (some (mkPXIEntry d))

/-- `validate_recording_folder`, iterating the manifest's `continuous`
descriptors over the device environment `env` of the recording folder.
`sync` is the truthiness of `sync_path_or_dataset`; `reconcile info`
stands for `next(get_ephys_timing_on_sync(sync, devices=(info,)))`,
whose failure of any kind is caught and re-raised as an
`AssertionError` naming the device; only `StopIteration` from the PXI
lookup becomes the `AssertionError` naming device and recording path. -/
def validate_recording_folder (recordingPath : String) (env : List PXIDevEnv)
    (continuousDescs : List Desc) (sync : Bool)
    (reconcile : EphysTimingInfoOnPXI → Except Unit Unit) :
    Except ValidationError Unit :=
  match continuousDescs with
  | [] => Except.ok ()
  | device :: rest =>
    match firstPXI env (some (deviceNameOf device)) with
    | Except.error e => Except.error (ValidationError.uncaught e)
    | Except.ok none =>
      Except.error (ValidationError.deviceNotFound (deviceNameOf device) recordingPath)
    | Except.ok (some info) =>
      if sync then
        match reconcile info with
        | Except.error _ =>
          Except.error (ValidationError.syncValidationFailed info.device.name)
        | Except.ok _ => validate_recording_folder recordingPath env rest sync reconcile
      else validate_recording_folder recordingPath env rest sync reconcile

/-! ## Theorems -/

example :
    String.mk (smLabel ("Start Time for Neuropix-PXI (107) - ProbeA-AP @ 30000 Hz: 210069564".toList))
      = "Neuropix-PXI-107.ProbeA-AP" := by decide

example :
    smStart ("Start Time for NI-DAQmx (109) - PXI-6133 @ 30000 Hz: 210265001".toList)
      = some 210265001 := by decide

example :
    smRate ("Start Time for NI-DAQmx (109) - PXI-6133 @ 30000 Hz: 210265001".toList)
      = some 30000 := by decide

/-! ### Lemmas about the Python string primitives -/

theorem splitFirst_some_eq {sep : List Char} :
    ∀ {s pre post : List Char}, splitFirst sep s = some (pre, post) →
      s = pre ++ sep ++ post := by
  intro s
  induction s with
  | nil =>
    intro pre post h
    simp only [splitFirst] at h
    split at h
    · rename_i hp
      rw [List.isPrefixOf_iff_prefix] at hp
      have : sep = [] := List.prefix_nil.mp hp
      cases h
      simp [this]
    · cases h
  | cons c rest ih =>
    intro pre post h
    simp only [splitFirst] at h
    split at h
    · rename_i hp
      rw [List.isPrefixOf_iff_prefix] at hp
      obtain ⟨t, ht⟩ := hp
      cases h
      simp only [List.nil_append]
      conv_lhs => rw [← ht]
      rw [← ht, List.drop_left]
    · rename_i hp
      cases hsf : splitFirst sep rest with
      | none => rw [hsf] at h; cases h
      | some pr =>
        rw [hsf] at h
        obtain ⟨pre', post'⟩ := pr
        simp only [Option.map_some'] at h
        cases h
        have := ih hsf
        simp [this]

theorem isSome_splitFirst_of_prefix {sep s : List Char} (h : sep <+: s) :
    (splitFirst sep s).isSome = true := by
  cases s with
  | nil =>
    simp only [splitFirst]
    rw [if_pos (List.isPrefixOf_iff_prefix.mpr h)]
    rfl
  | cons c rest =>
    simp only [splitFirst]
    rw [if_pos (List.isPrefixOf_iff_prefix.mpr h)]
    rfl

theorem not_prefix_of_occursIn_eq_false {sep s : List Char}
    (h : occursIn sep s = false) : ¬ sep <+: s := by
  intro hp
  have := isSome_splitFirst_of_prefix hp
  rw [occursIn] at h
  rw [h] at this
  cases this

theorem occursIn_tail_eq_false {sep : List Char} {c : Char} {s : List Char}
    (h : occursIn sep (c :: s) = false) : occursIn sep s = false := by
  by_contra hne
  have hs : (splitFirst sep s).isSome = true := by
    rw [occursIn] at hne
    cases hx : (splitFirst sep s).isSome
    · exact absurd hx hne
    · rfl
  rw [occursIn] at h
  simp only [splitFirst] at h
  split at h
  · cases h
  · cases hsf : splitFirst sep s with
    | none => rw [hsf] at hs; cases hs
    | some pr => rw [hsf] at h; cases h

theorem occursIn_eq_false_of_short {sep s : List Char}
    (hsep : sep ≠ []) (h : s.length < sep.length) : occursIn sep s = false := by
  induction s with
  | nil =>
    rw [occursIn]
    simp only [splitFirst]
    rw [if_neg]
    · rfl
    · rw [List.isPrefixOf_iff_prefix]
      intro hp
      exact hsep (List.prefix_nil.mp hp)
  | cons c rest ih =>
    rw [occursIn]
    simp only [splitFirst]
    rw [if_neg]
    · have hr : occursIn sep rest = false := by
        apply ih
        simp only [List.length_cons] at h
        omega
      rw [occursIn] at hr
      cases hsf : splitFirst sep rest with
      | none => simp
      | some pr => rw [hsf] at hr; cases hr
    · rw [List.isPrefixOf_iff_prefix]
      intro hp
      have := hp.length_le
      simp only [List.length_cons] at this h
      omega

theorem splitFirst_boundary {sep : List Char} (hsep : sep ≠ []) :
    ∀ {a : List Char} (b : List Char),
      occursIn sep (a ++ sep.dropLast) = false →
      splitFirst sep (a ++ sep ++ b) = some (a, b) := by
  intro a
  induction a with
  | nil =>
    intro b _
    cases hs : sep with
    | nil => exact absurd hs hsep
    | cons s0 sep' =>
      rw [← hs]
      simp only [List.nil_append]
      have hne : sep ++ b ≠ [] := by
        rw [hs]; simp
      cases hsb : sep ++ b with
      | nil => exact absurd hsb hne
      | cons x xs =>
        rw [← hsb]
        have hbr : splitFirst sep (sep ++ b)
            = if sep.isPrefixOf (sep ++ b) then some ([], (sep ++ b).drop sep.length)
              else (splitFirst sep xs).map (fun pr => (x :: pr.1, pr.2)) := by
          rw [hsb]
          rfl
        rw [hbr, if_pos (List.isPrefixOf_iff_prefix.mpr (List.prefix_append sep b))]
        rw [List.drop_left]
  | cons c a' ih =>
    intro b hocc
    have hfull : (c :: a') ++ sep ++ b
        = ((c :: a') ++ sep.dropLast) ++ ([sep.getLast hsep] ++ b) := by
      conv_lhs => rw [← List.dropLast_append_getLast hsep]
      simp [List.append_assoc]
    simp only [List.cons_append]
    simp only [splitFirst]
    rw [if_neg]
    · have hocc' : occursIn sep (a' ++ sep.dropLast) = false := by
        have : (c :: a') ++ sep.dropLast = c :: (a' ++ sep.dropLast) := by simp
        rw [this] at hocc
        exact occursIn_tail_eq_false hocc
      rw [ih b hocc']
      rfl
    · rw [List.isPrefixOf_iff_prefix]
      intro hp
      have hp2 : (c :: a') ++ sep.dropLast <+: c :: (a' ++ sep ++ b) := by
        have : c :: (a' ++ sep ++ b) = (c :: a') ++ sep ++ b := by simp
        rw [this, hfull]
        exact List.prefix_append _ _
      have hlen : sep.length ≤ ((c :: a') ++ sep.dropLast).length := by
        simp only [List.length_append, List.length_cons, List.length_dropLast]
        have : 1 ≤ sep.length := by
          cases sep with
          | nil => exact absurd rfl hsep
          | cons _ _ => simp
        omega
      have := List.prefix_of_prefix_length_le hp hp2 hlen
      exact (not_prefix_of_occursIn_eq_false hocc) this

theorem splitFirst_eq_none_of_occursIn_eq_false {sep s : List Char}
    (h : occursIn sep s = false) : splitFirst sep s = none := by
  rw [occursIn] at h
  cases hsf : splitFirst sep s with
  | none => rfl
  | some pr => rw [hsf] at h; cases h

theorem pySplitAux_of_none {sep s : List Char} (h : splitFirst sep s = none) :
    ∀ fuel, pySplitAux sep fuel s = [s] := by
  intro fuel
  cases fuel with
  | zero => rfl
  | succ n => simp [pySplitAux, h]

theorem pySplit_boundary {sep : List Char} (hsep : sep ≠ []) {a b : List Char}
    (ha : occursIn sep (a ++ sep.dropLast) = false)
    (hb : occursIn sep b = false) :
    pySplit sep (a ++ sep ++ b) = [a, b] := by
  rw [pySplit]
  have hlen : (a ++ sep ++ b).length + 1 = ((a ++ sep ++ b).length) + 1 := rfl
  simp only [pySplitAux, splitFirst_boundary hsep b ha]
  rw [pySplitAux_of_none (splitFirst_eq_none_of_occursIn_eq_false hb)]

theorem pySplit_headD {sep s pre post : List Char}
    (h : splitFirst sep s = some (pre, post)) :
    (pySplit sep s).headD [] = pre := by
  rw [pySplit]
  simp [pySplitAux, h]

theorem pyStrip_eq_self {cs : List Char} {s : List Char}
    (hne : s ≠ [])
    (hhd : ∀ hd, s.head? = some hd → cs.contains hd = false)
    (hlt : ∀ lt, s.getLast? = some lt → cs.contains lt = false) :
    pyStrip cs s = s := by
  rw [pyStrip]
  cases s with
  | nil => exact absurd rfl hne
  | cons c t =>
    have h1 : (c :: t).dropWhile (fun x => cs.contains x) = c :: t := by
      rw [List.dropWhile_cons]
      rw [hhd c rfl]
      simp
    rw [h1]
    cases hrev : (c :: t).reverse with
    | nil =>
      have := congrArg List.length hrev
      simp at this
    | cons d r =>
      have hd : (c :: t).getLast? = some d := by
        rw [List.getLast?_eq_head?_reverse, hrev]
        rfl
      have h2 : (d :: r).dropWhile (fun x => cs.contains x) = d :: r := by
        rw [List.dropWhile_cons]
        rw [hlt d hd]
        simp
      rw [h2, ← hrev, List.reverse_reverse]

theorem splitFirst_nil {sep : List Char} (hsep : sep ≠ []) :
    splitFirst sep [] = none := by
  simp only [splitFirst]
  rw [if_neg]
  rw [List.isPrefixOf_iff_prefix]
  intro hp
  exact hsep (List.prefix_nil.mp hp)

theorem pySplitAux_congr {sep : List Char} (hsep : sep ≠ []) :
    ∀ (n : Nat) (s : List Char), s.length ≤ n → ∀ fuel₁ fuel₂,
      s.length < fuel₁ → s.length < fuel₂ →
      pySplitAux sep fuel₁ s = pySplitAux sep fuel₂ s := by
  intro n
  induction n with
  | zero =>
    intro s hs fuel₁ fuel₂ h1 h2
    have hnil : s = [] := List.length_eq_zero.mp (Nat.le_zero.mp hs)
    subst hnil
    cases fuel₁ with
    | zero => omega
    | succ f1 =>
      cases fuel₂ with
      | zero => omega
      | succ f2 => simp [pySplitAux, splitFirst_nil hsep]
  | succ n ih =>
    intro s hs fuel₁ fuel₂ h1 h2
    cases fuel₁ with
    | zero => omega
    | succ f1 =>
      cases fuel₂ with
      | zero => omega
      | succ f2 =>
        simp only [pySplitAux]
        cases hsf : splitFirst sep s with
        | none => rfl
        | some pr =>
          obtain ⟨pre, post⟩ := pr
          have hseq := splitFirst_some_eq hsf
          have hsl : 0 < sep.length := List.length_pos.mpr hsep
          have hlen : post.length < s.length := by
            rw [hseq]
            simp only [List.length_append]
            omega
          simp only []
          congr 1
          exact ih post (by omega) f1 f2 (by omega) (by omega)

theorem pySplitAux_eq_pySplit {sep : List Char} (hsep : sep ≠ []) {s : List Char}
    {fuel : Nat} (h : s.length < fuel) :
    pySplitAux sep fuel s = pySplit sep s :=
  pySplitAux_congr hsep s.length s (Nat.le_refl _) fuel (s.length + 1) h (Nat.lt_succ_self _)

theorem pySplit_ne_nil {sep s : List Char} : pySplit sep s ≠ [] := by
  rw [pySplit]
  simp only [pySplitAux]
  cases hsf : splitFirst sep s with
  | none => simp
  | some pr => simp

theorem occursIn_single_eq_false {ch : Char} {s : List Char} (h : ch ∉ s) :
    occursIn ([ch]) s = false := by
  induction s with
  | nil => rw [occursIn, splitFirst_nil (by simp)]; rfl
  | cons c rest ih =>
    rw [occursIn]
    simp only [splitFirst]
    rw [if_neg]
    · have hr := ih (fun hm => h (List.mem_cons_of_mem c hm))
      rw [occursIn] at hr
      cases hsf : splitFirst ([ch]) rest with
      | none => simp
      | some pr => rw [hsf] at hr; cases hr
    · rw [List.isPrefixOf_iff_prefix]
      intro hp
      obtain ⟨t, ht⟩ := hp
      have : ch = c := by
        have := congrArg (fun l => l.headD ch) ht
        simpa using this
      exact h (this ▸ List.mem_cons_self ch rest)

theorem pySplitLines_eq_of_ne_nil {s : List Char} (hne : s ≠ []) :
    pySplitLines s
      = if s.getLastD ' ' = '\n'
        then (pySplit (['\n']) s).dropLast else pySplit (['\n']) s := by
  cases s with
  | nil => exact absurd rfl hne
  | cons c t => rfl

theorem pySplitLines_header {h rest : List Char} (hh : ∀ c ∈ h, c ≠ '\n') :
    pySplitLines (h ++ '\n' :: rest) = h :: pySplitLines rest := by
  have hocc : occursIn (['\n']) h = false :=
    occursIn_single_eq_false (fun hm => (hh _ hm) rfl)
  have hsf : splitFirst (['\n']) (h ++ '\n' :: rest) = some (h, rest) := by
    have := @splitFirst_boundary (['\n']) (by simp) h rest
      (by simpa using hocc)
    simpa using this
  have hparts : pySplit (['\n']) (h ++ '\n' :: rest) = h :: pySplit (['\n']) rest := by
    rw [pySplit]
    simp only [pySplitAux, hsf]
    congr 1
    apply pySplitAux_eq_pySplit (by simp)
    simp only [List.length_append, List.length_cons]
    omega
  rw [pySplitLines_eq_of_ne_nil (by simp), hparts]
  cases rest with
  | nil =>
    have hlast : (h ++ '\n' :: ([] : List Char)).getLastD ' ' = '\n' := by
      rw [List.getLastD_eq_getLast?, List.getLast?_append_of_ne_nil _ (by simp)]
      rfl
    rw [if_pos hlast]
    have hnil : pySplit (['\n']) ([] : List Char) = [[]] := by
      rw [pySplit, pySplitAux_of_none (splitFirst_nil (by simp))]
    rw [hnil]
    rfl
  | cons r rest' =>
    have hlast : (h ++ '\n' :: r :: rest').getLastD ' ' = (r :: rest').getLastD ' ' := by
      rw [List.getLastD_eq_getLast?, List.getLastD_eq_getLast?,
        List.getLast?_append_of_ne_nil _ (by simp)]
      have hsplit : ('\n' :: r :: rest') = ['\n'] ++ r :: rest' := rfl
      rw [hsplit, List.getLast?_append_of_ne_nil _ (by simp)]
    rw [pySplitLines_eq_of_ne_nil (by simp)]
    by_cases hend : (r :: rest').getLastD ' ' = '\n'
    · rw [if_pos (hlast.trans hend), if_pos hend]
      exact List.dropLast_cons_of_ne_nil pySplit_ne_nil
    · rw [if_neg (fun hc => hend (hlast.symm.trans hc)), if_neg hend]

theorem isDigit_not_mem_ws {c : Char} (h : c.isDigit = true) : c ∉ pyIntWs := by
  intro hm
  simp only [pyIntWs, List.mem_cons, List.not_mem_nil, or_false] at hm
  rcases hm with h1 | h1 | h1 | h1
  · subst h1; exact absurd h (by decide)
  · subst h1; exact absurd h (by decide)
  · subst h1; exact absurd h (by decide)
  · subst h1; exact absurd h (by decide)

theorem isDigit_not_ws {c : Char} (h : c.isDigit = true) :
    pyIntWs.contains c = false := by
  simp [List.contains, isDigit_not_mem_ws h]

theorem isDigit_ne_dash {c : Char} (h : c.isDigit = true) : c ≠ '-' := by
  intro hc; subst hc; exact absurd h (by decide)

theorem isDigit_ne_plus {c : Char} (h : c.isDigit = true) : c ≠ '+' := by
  intro hc; subst hc; exact absurd h (by decide)

theorem isDigit_ne_space {c : Char} (h : c.isDigit = true) : c ≠ ' ' := by
  intro hc; subst hc; exact absurd h (by decide)

theorem dropWhile_append_of_all {p : Char → Bool} {pre l : List Char}
    (hpre : ∀ c ∈ pre, p c = true) :
    (pre ++ l).dropWhile p = l.dropWhile p := by
  induction pre with
  | nil => rfl
  | cons c t ih =>
    rw [List.cons_append, List.dropWhile_cons, hpre c (List.mem_cons_self c t)]
    simp only [if_true]
    exact ih (fun x hx => hpre x (List.mem_cons_of_mem c hx))

theorem pyStrip_ws_of_digits {pre ds : List Char}
    (hpre : ∀ c ∈ pre, pyIntWs.contains c = true)
    (hne : ds ≠ []) (hd : ds.all Char.isDigit = true) :
    pyStrip pyIntWs (pre ++ ds) = ds := by
  rw [pyStrip]
  have h1 : (pre ++ ds).dropWhile (fun c => pyIntWs.contains c) = ds := by
    rw [dropWhile_append_of_all hpre]
    cases ds with
    | nil => exact absurd rfl hne
    | cons d t =>
      have hdd : d.isDigit = true := by
        rw [List.all_eq_true] at hd
        exact hd d (List.mem_cons_self d t)
      rw [List.dropWhile_cons]
      simp [isDigit_not_mem_ws hdd]
  rw [h1]
  cases hr : ds.reverse with
  | nil => exact absurd (List.reverse_eq_nil_iff.mp hr) hne
  | cons d r =>
    have hdm : d ∈ ds := by
      rw [← List.mem_reverse, hr]
      exact List.mem_cons_self d r
    have hdd : d.isDigit = true := by
      rw [List.all_eq_true] at hd
      exact hd d hdm
    have h2 : (d :: r).dropWhile (fun c => pyIntWs.contains c) = d :: r := by
      rw [List.dropWhile_cons]
      simp [isDigit_not_mem_ws hdd]
    rw [h2, ← hr, List.reverse_reverse]

theorem pyInt_digits {pre ds : List Char}
    (hpre : ∀ c ∈ pre, pyIntWs.contains c = true)
    (hne : ds ≠ []) (hd : ds.all Char.isDigit = true) :
    pyInt (pre ++ ds) = some ((digitsVal ds : Int)) := by
  rw [pyInt, pyStrip_ws_of_digits hpre hne hd]
  cases ds with
  | nil => exact absurd rfl hne
  | cons d t =>
    have hdd : d.isDigit = true := by
      rw [List.all_eq_true] at hd
      exact hd d (List.mem_cons_self d t)
    split
    · rename_i x ds heq
      injection heq with h1 h2
      rw [h1] at hdd
      exact absurd hdd (by decide)
    · rename_i x ds heq
      injection heq with h1 h2
      rw [h1] at hdd
      exact absurd hdd (by decide)
    · rw [if_pos (by simp [hd])]

theorem getLastD_pair {a b : List Char} : List.getLastD ([a, b]) [] = b := rfl

theorem smLabel_of_shape {lbl rateS numS : List Char}
    (h1 : occursIn sTFs (lbl ++ at3 ++ rateS ++ hz5 ++ numS) = false)
    (h2 : occursIn atSep (lbl ++ ([' '])) = false) :
    smLabel (sTFs ++ lbl ++ at3 ++ rateS ++ hz5 ++ numS) = normalizeLabel lbl := by
  have hsTFne : sTFs ≠ [] := by decide
  have hline : sTFs ++ lbl ++ at3 ++ rateS ++ hz5 ++ numS
      = [] ++ sTFs ++ (lbl ++ at3 ++ rateS ++ hz5 ++ numS) := by
    simp [List.append_assoc]
  have hsplit1 : pySplit sTFs (sTFs ++ lbl ++ at3 ++ rateS ++ hz5 ++ numS)
      = [[], lbl ++ at3 ++ rateS ++ hz5 ++ numS] := by
    rw [hline]
    exact pySplit_boundary hsTFne (by decide) h1
  have hR : lbl ++ at3 ++ rateS ++ hz5 ++ numS
      = lbl ++ atSep ++ ([' '] ++ rateS ++ hz5 ++ numS) := by
    have : at3 = atSep ++ [' '] := by decide
    simp [this, List.append_assoc]
  have hsf2 : splitFirst atSep (lbl ++ at3 ++ rateS ++ hz5 ++ numS)
      = some (lbl, [' '] ++ rateS ++ hz5 ++ numS) := by
    rw [hR]
    apply splitFirst_boundary (by decide)
    have hdl : atSep.dropLast = [' '] := by decide
    rw [hdl]
    exact h2
  simp only [smLabel]
  rw [hsplit1]
  have hgl : List.getLastD ([([] : List Char), lbl ++ at3 ++ rateS ++ hz5 ++ numS]) []
      = lbl ++ at3 ++ rateS ++ hz5 ++ numS := getLastD_pair
  rw [hgl, pySplit_headD hsf2]

theorem smStart_of_shape {lbl rateS numS : List Char}
    (h3 : occursIn hzColonSep (sTFs ++ lbl ++ at3 ++ rateS ++ ([' ', 'H', 'z'])) = false)
    (h4 : occursIn hzColonSep (' ' :: numS) = false)
    (hne : numS ≠ []) (hdig : numS.all Char.isDigit = true) :
    smStart (sTFs ++ lbl ++ at3 ++ rateS ++ hz5 ++ numS) = some ((digitsVal numS : Int)) := by
  have hstrip : pyStrip ([' ']) (sTFs ++ lbl ++ at3 ++ rateS ++ hz5 ++ numS)
      = sTFs ++ lbl ++ at3 ++ rateS ++ hz5 ++ numS := by
    apply pyStrip_eq_self
    · intro hc
      have := congrArg List.length hc
      simp [sTFs] at this
    · intro hd hhd
      have h5 : sTFs ++ lbl ++ at3 ++ rateS ++ hz5 ++ numS
          = sTFs ++ (lbl ++ at3 ++ rateS ++ hz5 ++ numS) := by
        simp [List.append_assoc]
      rw [h5, List.head?_append_of_ne_nil _ (by decide)] at hhd
      have : hd = 'S' := by
        have : some 'S' = some hd := by rw [← hhd]; decide
        injection this with h6
        exact h6.symm
      subst this
      decide
    · intro lt hlt
      rw [List.getLast?_append_of_ne_nil _ hne] at hlt
      have hmem : lt ∈ numS := List.mem_of_getLast?_eq_some hlt
      have hdd : lt.isDigit = true := by
        rw [List.all_eq_true] at hdig
        exact hdig lt hmem
      have hns : lt ≠ ' ' := isDigit_ne_space hdd
      simp [List.contains, hns]
  simp only [smStart]
  rw [hstrip]
  have hA : sTFs ++ lbl ++ at3 ++ rateS ++ hz5 ++ numS
      = (sTFs ++ lbl ++ at3 ++ rateS ++ [' ']) ++ hzColonSep ++ (' ' :: numS) := by
    have h5 : hz5 = [' '] ++ hzColonSep ++ [' '] := by decide
    simp [h5, List.append_assoc]
  have hshort3 : occursIn hzColonSep
      ((sTFs ++ lbl ++ at3 ++ rateS ++ [' ']) ++ hzColonSep.dropLast) = false := by
    have hdl : hzColonSep.dropLast = ['H', 'z'] := by decide
    rw [hdl]
    have h6 : sTFs ++ lbl ++ at3 ++ rateS ++ [' '] ++ ['H', 'z']
        = sTFs ++ lbl ++ at3 ++ rateS ++ ([' ', 'H', 'z']) := by
      simp [List.append_assoc]
    rw [h6]
    exact h3
  have hsplit : pySplit hzColonSep (sTFs ++ lbl ++ at3 ++ rateS ++ hz5 ++ numS)
      = [sTFs ++ lbl ++ at3 ++ rateS ++ [' '], ' ' :: numS] := by
    rw [hA]
    exact pySplit_boundary (by decide) hshort3 h4
  rw [hsplit, getLastD_pair]
  have h7 : (' ' :: numS) = [' '] ++ numS := rfl
  rw [h7]
  exact pyInt_digits (by decide) hne hdig

theorem smRate_of_shape {lbl rateS numS : List Char}
    (h6 : occursIn atSpaceSep (sTFs ++ lbl ++ ([' ', '@'])) = false)
    (h7 : occursIn atSpaceSep (rateS ++ hz5 ++ numS) = false)
    (h8 : occursIn spaceHzSep (rateS ++ ([' ', 'H'])) = false)
    (hne : rateS ≠ []) (hdig : rateS.all Char.isDigit = true) :
    smRate (sTFs ++ lbl ++ at3 ++ rateS ++ hz5 ++ numS) = some ((digitsVal rateS : Int)) := by
  have hA : sTFs ++ lbl ++ at3 ++ rateS ++ hz5 ++ numS
      = (sTFs ++ lbl ++ [' ']) ++ atSpaceSep ++ (rateS ++ hz5 ++ numS) := by
    have h0 : at3 = [' '] ++ atSpaceSep := by decide
    simp [h0, List.append_assoc]
  have hshort6 : occursIn atSpaceSep
      ((sTFs ++ lbl ++ [' ']) ++ atSpaceSep.dropLast) = false := by
    have hdl : atSpaceSep.dropLast = ['@'] := by decide
    rw [hdl]
    have h9 : sTFs ++ lbl ++ [' '] ++ ['@'] = sTFs ++ lbl ++ ([' ', '@']) := by
      simp [List.append_assoc]
    rw [h9]
    exact h6
  have hsplit : pySplit atSpaceSep (sTFs ++ lbl ++ at3 ++ rateS ++ hz5 ++ numS)
      = [sTFs ++ lbl ++ [' '], rateS ++ hz5 ++ numS] := by
    rw [hA]
    exact pySplit_boundary (by decide) hshort6 h7
  simp only [smRate]
  rw [hsplit, getLastD_pair]
  have hB : rateS ++ hz5 ++ numS = rateS ++ spaceHzSep ++ ([':', ' '] ++ numS) := by
    have h0 : hz5 = spaceHzSep ++ [':', ' '] := by decide
    simp [h0, List.append_assoc]
  have hsf2 : splitFirst spaceHzSep (rateS ++ hz5 ++ numS)
      = some (rateS, [':', ' '] ++ numS) := by
    rw [hB]
    apply splitFirst_boundary (by decide)
    have hdl : spaceHzSep.dropLast = [' ', 'H'] := by decide
    rw [hdl]
    exact h8
  rw [pySplit_headD hsf2]
  have h10 : rateS = [] ++ rateS := rfl
  rw [h10]
  exact pyInt_digits (by simp) hne hdig

/-- C7: acquisition-log parsing (`get_sync_messages_data`) ignores the
first (header) line, and maps every subsequent line of the form
`Start Time for <label> @ <rate> Hz: <int>` to the normalised label
(first `") - "` becomes `"."`, then `" ("` becomes `"-"`), the integer
rate, and the integer first sample; in particular a log whose second line
is `Start Time for NI-DAQmx-105.PXI-6133 @ 30000 Hz: 257417001` yields a
device labeled `NI-DAQmx-105.PXI-6133` with rate `30000` and first sample
`257417001`. -/
theorem C7_sync_messages_parsing :
    (∀ h h' rest : List Char, (∀ c ∈ h, c ≠ '\n') → (∀ c ∈ h', c ≠ '\n') →
        get_sync_messages_data (String.mk (h ++ '\n' :: rest))
          = get_sync_messages_data (String.mk (h' ++ '\n' :: rest)))
    ∧ (∀ lbl rateS numS : List Char,
        occursIn sTFs (lbl ++ at3 ++ rateS ++ hz5 ++ numS) = false →
        occursIn atSep (lbl ++ ([' '])) = false →
        occursIn hzColonSep (sTFs ++ lbl ++ at3 ++ rateS ++ ([' ', 'H', 'z'])) = false →
        occursIn hzColonSep (' ' :: numS) = false →
        occursIn atSpaceSep (sTFs ++ lbl ++ ([' ', '@'])) = false →
        occursIn atSpaceSep (rateS ++ hz5 ++ numS) = false →
        occursIn spaceHzSep (rateS ++ ([' ', 'H'])) = false →
        rateS ≠ [] → rateS.all Char.isDigit = true →
        numS ≠ [] → numS.all Char.isDigit = true →
        smLabel (sTFs ++ lbl ++ at3 ++ rateS ++ hz5 ++ numS) = normalizeLabel lbl
          ∧ smStart (sTFs ++ lbl ++ at3 ++ rateS ++ hz5 ++ numS)
              = some ((digitsVal numS : Int))
          ∧ smRate (sTFs ++ lbl ++ at3 ++ rateS ++ hz5 ++ numS)
              = some ((digitsVal rateS : Int)))
    ∧ get_sync_messages_data
        ("sync messages:\nStart Time for NI-DAQmx-105.PXI-6133 @ 30000 Hz: 257417001\n")
        = [("NI-DAQmx-105.PXI-6133", some 257417001, some 30000)] := by
  refine ⟨?_, ?_, ?_⟩
  · intro h h' rest hh hh'
    have e1 : (String.mk (h ++ '\n' :: rest)).toList = h ++ '\n' :: rest := rfl
    have e2 : (String.mk (h' ++ '\n' :: rest)).toList = h' ++ '\n' :: rest := rfl
    simp only [get_sync_messages_data, e1, e2]
    rw [pySplitLines_header hh, pySplitLines_header hh']
    rfl
  · intro lbl rateS numS h1 h2 h3 h4 h6 h7 h8 hneR hdigR hneN hdigN
    exact ⟨smLabel_of_shape h1 h2, smStart_of_shape h3 h4 hneN hdigN,
      smRate_of_shape h6 h7 h8 hneR hdigR⟩
  · decide

/-- Witness for C7: the per-line parsing theorem applied to the concrete
log line `Start Time for NI-DAQmx (105) - PXI-6133 @ 30000 Hz: 257417001`. -/
theorem C7_sync_messages_parsing_witness :
    smLabel (sTFs ++ ("NI-DAQmx (105) - PXI-6133".toList) ++ at3 ++ ("30000".toList)
        ++ hz5 ++ ("257417001".toList))
      = normalizeLabel ("NI-DAQmx (105) - PXI-6133".toList)
    ∧ smStart (sTFs ++ ("NI-DAQmx (105) - PXI-6133".toList) ++ at3 ++ ("30000".toList)
        ++ hz5 ++ ("257417001".toList))
      = some ((digitsVal ("257417001".toList) : Int))
    ∧ smRate (sTFs ++ ("NI-DAQmx (105) - PXI-6133".toList) ++ at3 ++ ("30000".toList)
        ++ hz5 ++ ("257417001".toList))
      = some ((digitsVal ("30000".toList) : Int)) :=
  C7_sync_messages_parsing.2.1 ("NI-DAQmx (105) - PXI-6133".toList) ("30000".toList)
    ("257417001".toList) (by decide) (by decide) (by decide) (by decide) (by decide)
    (by decide) (by decide) (by decide) (by decide) (by decide) (by decide)

/-! ### Lemmas for the binary-container reader -/

theorem leEnc_length (w n : Nat) : (leEnc w n).length = w := by
  induction w generalizing n with
  | zero => rfl
  | succ w ih => simp [leEnc, ih]

theorem leDec_leEnc {w n : Nat} (h : n < 256 ^ w) : leDec (leEnc w n) = n := by
  induction w generalizing n with
  | zero =>
    simp only [Nat.pow_zero, Nat.lt_one_iff] at h
    simp [leEnc, leDec, h]
  | succ w ih =>
    simp only [leEnc, leDec]
    have hdiv : n / 256 < 256 ^ w := by
      rw [Nat.div_lt_iff_lt_mul (by norm_num)]
      calc n < 256 ^ (w + 1) := h
        _ = 256 ^ w * 256 := by ring
    rw [ih hdiv]
    omega

theorem chunksOfAux_join {k : Nat} (hk : 0 < k) :
    ∀ (elems : List (List Nat)) (fuel : Nat), (∀ e ∈ elems, e.length = k) →
      elems.join.length ≤ fuel → chunksOfAux k fuel elems.join = elems := by
  intro elems
  induction elems with
  | nil =>
    intro fuel _ _
    cases fuel <;> rfl
  | cons e es ih =>
    intro fuel hlen hfuel
    have hek : e.length = k := hlen e (List.mem_cons_self e es)
    have hjoin : (e :: es).join = e ++ es.join := by simp
    cases fuel with
    | zero =>
      exfalso
      rw [hjoin] at hfuel
      simp only [List.length_append, hek, Nat.le_zero] at hfuel
      omega
    | succ f =>
      rw [hjoin]
      have hne : e ++ es.join ≠ [] := by
        intro hx
        have := congrArg List.length hx
        simp [hek] at this
        omega
      obtain ⟨c, rest, hc⟩ : ∃ c rest, e ++ es.join = c :: rest := by
        cases hx : e ++ es.join with
        | nil => exact absurd hx hne
        | cons c rest => exact ⟨c, rest, rfl⟩
      rw [hc]
      simp only [chunksOfAux]
      rw [← hc, List.take_left' hek, List.drop_left' hek]
      congr 1
      apply ih f (fun x hx => hlen x (List.mem_cons_of_mem e hx))
      rw [hjoin] at hfuel
      simp only [List.length_append, hek] at hfuel
      omega

theorem chunksOf_join {k : Nat} (hk : 0 < k) (elems : List (List Nat))
    (hlen : ∀ e ∈ elems, e.length = k) : chunksOf k elems.join = elems :=
  chunksOfAux_join hk elems elems.join.length hlen (Nat.le_refl _)

theorem join_drop {k : Nat} :
    ∀ (i : Nat) (elems : List (List Nat)), (∀ e ∈ elems, e.length = k) →
      elems.join.drop (i * k) = (elems.drop i).join := by
  intro i
  induction i with
  | zero => intro elems _; simp
  | succ i ih =>
    intro elems hlen
    cases elems with
    | nil => simp
    | cons e es =>
      have hek : e.length = k := hlen e (List.mem_cons_self e es)
      have h1 : (e :: es).join = e ++ es.join := by simp
      have h2 : (i + 1) * k = k + i * k := by ring
      rw [h1, h2, ← List.drop_drop, List.drop_left' hek,
        ih es (fun x hx => hlen x (List.mem_cons_of_mem e hx))]
      simp

theorem join_take {k : Nat} :
    ∀ (m : Nat) (elems : List (List Nat)), (∀ e ∈ elems, e.length = k) →
      elems.join.take (m * k) = (elems.take m).join := by
  intro m
  induction m with
  | zero => intro elems _; simp
  | succ m ih =>
    intro elems hlen
    cases elems with
    | nil => simp
    | cons e es =>
      have hek : e.length = k := hlen e (List.mem_cons_self e es)
      have h1 : (e :: es).join = e ++ es.join := by simp
      have h2 : (m + 1) * k = k + m * k := by ring
      rw [h1, h2, List.take_add, List.take_left' hek, List.drop_left' hek,
        ih es (fun x hx => hlen x (List.mem_cons_of_mem e hx))]
      simp

theorem read_mkNpy (parse : List Nat → Option NpyHeader) (verMajor verMinor : Nat)
    (headerBytes : List Nat) (elems : List (List Nat)) (k i j : Nat)
    (hk : 0 < k) (hlen : ∀ e ∈ elems, e.length = k)
    (hparse : parse headerBytes = some ⟨[elems.length], k⟩)
    (hhb : headerBytes.length < 256 ^ (if verMajor = 1 then 2 else 4))
    (hij : i ≤ j) (hjl : j ≤ elems.length) :
    read_array_range_from_npy parse (mkNpy verMajor verMinor headerBytes elems) i j
      = Except.ok ((elems.drop i).take (j - i)) := by
  have hw : (if verMajor = 1 then (10 : Nat) else 12)
      = 8 + (if verMajor = 1 then (2 : Nat) else 4) := by
    by_cases hv : verMajor = 1 <;> simp [hv]
  set w : Nat := if verMajor = 1 then 2 else 4 with hwdef
  set L : List Nat := leEnc w headerBytes.length with hLdef
  have hLlen : L.length = w := leEnc_length w _
  set D : List Nat := mkNpy verMajor verMinor headerBytes elems with hDdef
  have hdata6 : D = npyMagic ++ ([verMajor, verMinor] ++ (L ++ (headerBytes ++ elems.join))) := by
    rw [hDdef, mkNpy]
    simp [List.append_assoc, hLdef, hwdef]
  have hdata8 : D = (npyMagic ++ [verMajor, verMinor]) ++ (L ++ (headerBytes ++ elems.join)) := by
    rw [hdata6]; simp [List.append_assoc]
  have hdataW : D = ((npyMagic ++ [verMajor, verMinor]) ++ L) ++ (headerBytes ++ elems.join) := by
    rw [hdata8]; simp [List.append_assoc]
  have hdataA : D = (((npyMagic ++ [verMajor, verMinor]) ++ L) ++ headerBytes) ++ elems.join := by
    rw [hdataW]; simp [List.append_assoc]
  have hver : byteSlice D 6 7 = [verMajor] := by
    rw [byteSlice, hdata6, List.drop_left' (by rfl)]
    rfl
  have hvdec : leDec ([verMajor]) = verMajor := by simp [leDec]
  have hfield : byteSlice D 8 (8 + w) = L := by
    rw [byteSlice, hdata8, List.drop_left' (by rfl), Nat.add_sub_cancel_left,
      List.take_left' hLlen]
  have hfdec : leDec L = headerBytes.length := by
    rw [hLdef]
    exact leDec_leEnc hhb
  have hhdr : byteSlice D (8 + w) (8 + w + headerBytes.length) = headerBytes := by
    have hPW : ((npyMagic ++ [verMajor, verMinor]) ++ L).length = 8 + w := by
      rw [List.length_append, hLlen,
        show (npyMagic ++ [verMajor, verMinor]).length = 8 from rfl]
    rw [byteSlice, hdataW, List.drop_left' hPW, Nat.add_sub_cancel_left,
      List.take_left' rfl]
  have hslice : byteSlice D (8 + w + headerBytes.length + i * k)
      (8 + w + headerBytes.length + j * k)
      = ((elems.drop i).take (j - i)).join := by
    have hPlen : ((((npyMagic ++ [verMajor, verMinor]) ++ L) ++ headerBytes)).length
        = 8 + w + headerBytes.length := by
      rw [List.length_append, List.length_append, hLlen,
        show (npyMagic ++ [verMajor, verMinor]).length = 8 from rfl]
    rw [byteSlice, hdataA]
    have hd : ((((npyMagic ++ [verMajor, verMinor]) ++ L) ++ headerBytes) ++ elems.join).drop
        (8 + w + headerBytes.length + i * k) = elems.join.drop (i * k) := by
      rw [← List.drop_drop]
      rw [List.drop_left' hPlen]
    rw [hd]
    rw [show 8 + w + headerBytes.length + j * k - (8 + w + headerBytes.length + i * k)
        = j * k - i * k from by omega]
    rw [join_drop i elems hlen]
    rw [show j * k - i * k = (j - i) * k from by rw [Nat.sub_mul]]
    exact join_take (j - i) (elems.drop i)
      (fun x hx => hlen x (List.mem_of_mem_drop hx))
  simp only [read_array_range_from_npy]
  rw [hver, hvdec, hw, hfield, hfdec, hhdr, hparse]
  simp only [List.length_singleton, ne_eq, not_true_eq_false, if_neg, ite_false]
  rw [hslice]
  congr 1
  exact chunksOf_join hk ((elems.drop i).take (j - i))
    (fun x hx => hlen x (List.mem_of_mem_drop (List.mem_of_mem_take hx)))

/-- C1: for every valid array in the documented container format (6-byte
magic, major and minor version bytes, a little-endian header-length field
2 bytes wide for major version 1 and 4 bytes wide otherwise, the textual
header, then raw element bytes) and all indices `0 ≤ i ≤ j ≤ len`,
`read_array_range_from_npy` on `slice(i, j)` returns exactly
`full_array[i:j]`, computing the byte range as
`array_start + index * element_size` on each side; version-1 and
version-2 containers with identical logical content yield identical
results. -/
theorem C1_read_array_range_from_npy :
    (∀ (parse : List Nat → Option NpyHeader) (verMajor verMinor : Nat)
        (headerBytes : List Nat) (elems : List (List Nat)) (k i j : Nat),
      0 < k → (∀ e ∈ elems, e.length = k) →
      parse headerBytes = some ⟨[elems.length], k⟩ →
      headerBytes.length < 256 ^ (if verMajor = 1 then 2 else 4) →
      i ≤ j → j ≤ elems.length →
      read_array_range_from_npy parse (mkNpy verMajor verMinor headerBytes elems) i j
        = Except.ok ((elems.drop i).take (j - i)))
    ∧ (∀ (parse : List Nat → Option NpyHeader) (verMinor₁ verMinor₂ : Nat)
        (hb₁ hb₂ : List Nat) (elems : List (List Nat)) (k i j : Nat),
      0 < k → (∀ e ∈ elems, e.length = k) →
      parse hb₁ = some ⟨[elems.length], k⟩ → parse hb₂ = some ⟨[elems.length], k⟩ →
      hb₁.length < 256 ^ 2 → hb₂.length < 256 ^ 4 →
      i ≤ j → j ≤ elems.length →
      read_array_range_from_npy parse (mkNpy 1 verMinor₁ hb₁ elems) i j
        = read_array_range_from_npy parse (mkNpy 2 verMinor₂ hb₂ elems) i j) := by
  refine ⟨fun parse vM vm hb elems k i j hk hlen hp hhb hij hjl =>
    read_mkNpy parse vM vm hb elems k i j hk hlen hp hhb hij hjl,
    fun parse vm₁ vm₂ hb₁ hb₂ elems k i j hk hlen hp₁ hp₂ hb₁l hb₂l hij hjl => ?_⟩
  rw [read_mkNpy parse 1 vm₁ hb₁ elems k i j hk hlen hp₁ (by simpa using hb₁l) hij hjl,
    read_mkNpy parse 2 vm₂ hb₂ elems k i j hk hlen hp₂ (by simpa using hb₂l) hij hjl]

/-- Witness for C1: a concrete version-1 container with three 2-byte
elements, read on `slice(1, 3)`. -/
theorem C1_read_array_range_from_npy_witness :
    read_array_range_from_npy
        (fun hb => if hb = [7] then some ⟨[3], 2⟩ else none)
        (mkNpy 1 0 ([7]) ([[1, 2], [3, 4], [5, 6]])) 1 3
      = Except.ok ([[3, 4], [5, 6]]) := by
  have := C1_read_array_range_from_npy.1
    (fun hb => if hb = [7] then some ⟨[3], 2⟩ else none) 1 0 ([7])
    ([[1, 2], [3, 4], [5, 6]]) 2 1 3 (by decide) (by decide) (by decide)
    (by decide) (by decide) (by decide)
  simpa using this

/-! ### Lemmas for manifest selection -/

theorem foldl_max_le {l : List Nat} : ∀ {a : Nat}, a ≤ l.foldl max a := by
  induction l with
  | nil => intro a; simp
  | cons c rest ih =>
    intro a
    simp only [List.foldl_cons]
    exact le_trans (Nat.le_max_left a c) ih

theorem le_foldl_max {l : List Nat} {a : Nat} : ∀ x ∈ l, x ≤ l.foldl max a := by
  induction l generalizing a with
  | nil => intro x hx; cases hx
  | cons c rest ih =>
    intro x hx
    simp only [List.foldl_cons]
    rcases List.mem_cons.mp hx with h | h
    · subst h
      exact le_trans (Nat.le_max_right a x) foldl_max_le
    · exact ih x h

theorem foldl_max_mem : ∀ (l : List Nat) (a : Nat), l.foldl max a ∈ l ∨ l.foldl max a = a := by
  intro l
  induction l with
  | nil => intro a; right; rfl
  | cons c rest ih =>
    intro a
    simp only [List.foldl_cons]
    rcases ih (max a c) with h | h
    · exact Or.inl (List.mem_cons_of_mem c h)
    · rcases max_choice a c with hm | hm
      · right; rw [h, hm]
      · left; rw [h, hm]; exact List.mem_cons_self c rest

theorem indexOf_first {α : Type} [DecidableEq α] {l : List α} {m : α} (hm : m ∈ l) :
    l[l.indexOf m]? = some m ∧ ∀ k, k < l.indexOf m → l[k]? ≠ some m := by
  induction l with
  | nil => cases hm
  | cons b rest ih =>
    by_cases hb : b = m
    · subst hb
      rw [List.indexOf_cons_self]
      exact ⟨by simp, fun k hk => absurd hk (Nat.not_lt_zero k)⟩
    · have hm' : m ∈ rest := by
        rcases List.mem_cons.mp hm with h | h
        · exact absurd h.symm hb
        · exact h
      have hidx : (b :: rest).indexOf m = rest.indexOf m + 1 := by
        rw [List.indexOf_cons_ne rest hb]
      obtain ⟨h1, h2⟩ := ih hm'
      constructor
      · rw [hidx]
        simpa using h1
      · intro k hk
        rw [hidx] at hk
        cases k with
        | zero =>
          intro hc
          simp only [List.getElem?_cons_zero] at hc
          exact hb (by injection hc)
        | succ k' =>
          intro hc
          simp only [List.getElem?_cons_succ] at hc
          exact h2 k' (by omega) hc

theorem get_single_spec {α : Type} [DecidableEq α] (oebins : List (α × Nat))
    (h2 : 2 ≤ oebins.length) :
    ∃ idx : Nat, ∃ chosen : α × Nat, oebins[idx]? = some chosen
      ∧ get_single_oebin_path oebins = some chosen.1
      ∧ (∀ o ∈ oebins, o.2 ≤ chosen.2)
      ∧ (∀ k, k < idx → ∀ o', oebins[k]? = some o' → o'.2 < chosen.2) := by
  match oebins, h2 with
  | a :: b :: rest, _ =>
    set sizes : List Nat := ((a :: b :: rest).map (fun o => o.2)) with hsizes
    set m : Nat := sizes.foldl max 0 with hm
    have hmem : m ∈ sizes := by
      rcases foldl_max_mem sizes 0 with h | h
      · exact h
      · have hm0 : m = 0 := by rw [hm]; exact h
        have ha2 : a.2 ∈ sizes := by simp [hsizes]
        have hle : a.2 ≤ m := le_foldl_max a.2 ha2
        have ha0 : a.2 = 0 := by omega
        rw [hm0, ← ha0]
        exact ha2
    set idx : Nat := sizes.indexOf m with hidx
    have hlt : idx < sizes.length := List.indexOf_lt_length.mpr hmem
    have hlen : sizes.length = (a :: b :: rest).length := by simp [hsizes]
    obtain ⟨hget, hfirst⟩ := indexOf_first hmem
    obtain ⟨chosen, hchosen⟩ : ∃ chosen, (a :: b :: rest)[idx]? = some chosen := by
      have : idx < (a :: b :: rest).length := by omega
      exact ⟨(a :: b :: rest)[idx], List.getElem?_eq_getElem this⟩
    have hsz : chosen.2 = m := by
      have : sizes[idx]? = ((a :: b :: rest)[idx]?).map (fun o => o.2) := by
        rw [hsizes, List.getElem?_map]
      rw [hget, hchosen] at this
      injection this with h
      exact h.symm
    refine ⟨idx, chosen, hchosen, ?_, ?_, ?_⟩
    · show get_single_oebin_path (a :: b :: rest) = some chosen.1
      simp only [get_single_oebin_path]
      rw [← hsizes, ← hm, ← hidx, hchosen]
      rfl
    · intro o ho
      have : o.2 ∈ sizes := by
        rw [hsizes]
        exact List.mem_map_of_mem (fun o => o.2) ho
      rw [hsz]
      exact le_foldl_max o.2 this
    · intro k hk o' ho'
      have hne : sizes[k]? ≠ some m := hfirst k hk
      have hmap : sizes[k]? = some o'.2 := by
        rw [hsizes, List.getElem?_map, ho']
        rfl
      have hne2 : o'.2 ≠ m := by
        intro hc
        rw [hmap, hc] at hne
        exact hne rfl
      have hle : o'.2 ≤ m := by
        apply le_foldl_max
        rw [hsizes]
        exact List.mem_map_of_mem (fun o => o.2) (List.getElem?_mem ho')
      rw [hsz]
      omega

theorem get_single_mem {α : Type} [DecidableEq α] {oebins : List (α × Nat)} {c : α}
    (h2 : 2 ≤ oebins.length) (hc : get_single_oebin_path oebins = some c) :
    c ∈ oebins.map (fun o => o.1) := by
  obtain ⟨idx, chosen, hget, hsingle, _, _⟩ := get_single_spec oebins h2
  rw [hc] at hsingle
  have hcc : c = chosen.1 := by injection hsingle
  rw [hcc]
  exact List.mem_map_of_mem (fun o => o.1) (List.getElem?_mem hget)

theorem get_superfluous_spec {α : Type} [DecidableEq α] (oebins : List (α × Nat))
    (h2 : 2 ≤ oebins.length) (hnd : (oebins.map (fun o => o.1)).Nodup)
    (chosen : α) (hc : get_single_oebin_path oebins = some chosen) :
    get_superfluous_oebin_paths oebins
      = (oebins.map (fun o => o.1)).filter (fun p => decide (p ≠ chosen))
    ∧ (get_superfluous_oebin_paths oebins).length = oebins.length - 1
    ∧ chosen ∉ get_superfluous_oebin_paths oebins
    ∧ (∀ p, p ∈ get_superfluous_oebin_paths oebins
        ↔ p ∈ oebins.map (fun o => o.1) ∧ p ≠ chosen) := by
  have hform : get_superfluous_oebin_paths oebins
      = (oebins.map (fun o => o.1)).filter (fun p => decide (p ≠ chosen)) := by
    rw [get_superfluous_oebin_paths, if_neg (by omega), hc]
  have hmemc : chosen ∈ oebins.map (fun o => o.1) := get_single_mem h2 hc
  have hpred : (fun p : α => decide (p ≠ chosen)) = (fun p => p != chosen) := by
    funext p
    by_cases h : p = chosen <;> simp [h]
  refine ⟨hform, ?_, ?_, ?_⟩
  · rw [hform, hpred, ← List.Nodup.erase_eq_filter hnd chosen,
      List.length_erase_of_mem hmemc, List.length_map]
  · rw [hform]
    intro hmem
    have := (List.mem_filter.mp hmem).2
    simp at this
  · intro p
    rw [hform, List.mem_filter]
    simp

/-- C3: when exactly one `structure*.oebin` manifest exists under a
directory, `get_single_oebin_path` returns it (and no path is
superfluous); when `N ≥ 2` exist, it returns the manifest whose
containing folder has the largest total size, ties broken by
first-encountered order, and `get_superfluous_oebin_paths` returns
exactly the other `N - 1` manifest paths. -/
theorem C3_oebin_selection :
    (∀ o : String × Nat, get_single_oebin_path ([o]) = some o.1
        ∧ get_superfluous_oebin_paths ([o]) = [])
    ∧ (∀ oebins : List (String × Nat), 2 ≤ oebins.length →
        ∃ idx : Nat, ∃ chosen : String × Nat, oebins[idx]? = some chosen
          ∧ get_single_oebin_path oebins = some chosen.1
          ∧ (∀ o ∈ oebins, o.2 ≤ chosen.2)
          ∧ (∀ k, k < idx → ∀ o', oebins[k]? = some o' → o'.2 < chosen.2))
    ∧ (∀ oebins : List (String × Nat), 2 ≤ oebins.length →
        (oebins.map (fun o => o.1)).Nodup →
        ∀ chosen, get_single_oebin_path oebins = some chosen →
          get_superfluous_oebin_paths oebins
            = (oebins.map (fun o => o.1)).filter (fun p => decide (p ≠ chosen))
          ∧ (get_superfluous_oebin_paths oebins).length = oebins.length - 1
          ∧ chosen ∉ get_superfluous_oebin_paths oebins
          ∧ (∀ p, p ∈ get_superfluous_oebin_paths oebins
              ↔ p ∈ oebins.map (fun o => o.1) ∧ p ≠ chosen)) :=
  ⟨fun o => ⟨rfl, rfl⟩,
    fun oebins h2 => get_single_spec oebins h2,
    fun oebins h2 hnd chosen hc => get_superfluous_spec oebins h2 hnd chosen hc⟩

/-- Witness for C3: three manifests with folder sizes 10, 30, 30; the
first folder of size 30 is authoritative and the other two manifests are
superfluous. -/
theorem C3_oebin_selection_witness :
    get_superfluous_oebin_paths
        ([("a.oebin", 10), ("b.oebin", 30), ("c.oebin", 30)] : List (String × Nat))
      = ((([("a.oebin", 10), ("b.oebin", 30), ("c.oebin", 30)] : List (String × Nat)).map
          (fun o => o.1)).filter (fun p => decide (p ≠ "b.oebin")))
    ∧ (get_superfluous_oebin_paths
        ([("a.oebin", 10), ("b.oebin", 30), ("c.oebin", 30)] : List (String × Nat))).length
        = 3 - 1
    ∧ "b.oebin" ∉ get_superfluous_oebin_paths
        ([("a.oebin", 10), ("b.oebin", 30), ("c.oebin", 30)] : List (String × Nat)) := by
  have h := C3_oebin_selection.2.2
    ([("a.oebin", 10), ("b.oebin", 30), ("c.oebin", 30)]) (by decide) (by decide)
    ("b.oebin") (by decide)
  exact ⟨h.1, h.2.1, h.2.2.1⟩

/-! ### Lemmas for the manifest merge -/

theorem allEqHead_iff {α : Type} [DecidableEq α] {l : List α} :
    allEqHead l = true ↔ ∀ x ∈ l, ∀ y ∈ l, x = y := by
  cases l with
  | nil => simp [allEqHead]
  | cons x xs =>
    simp only [allEqHead, List.all_eq_true]
    constructor
    · intro h a ha b hb
      have hx : ∀ c ∈ x :: xs, c = x := by
        intro c hc
        rcases List.mem_cons.mp hc with h1 | h1
        · exact h1
        · simpa using h c h1
      rw [hx a ha, hx b hb]
    · intro h y hy
      have := h y (List.mem_cons_of_mem x hy) x (List.mem_cons_self x xs)
      simpa using this

theorem allEqHead_perm {α : Type} [DecidableEq α] {l₁ l₂ : List α} (h : l₁.Perm l₂) :
    allEqHead l₁ = allEqHead l₂ := by
  have hiff : allEqHead l₁ = true ↔ allEqHead l₂ = true := by
    rw [allEqHead_iff, allEqHead_iff]
    constructor <;> intro hh x hx y hy
    · exact hh x (h.mem_iff.mpr hx) y (h.mem_iff.mpr hy)
    · exact hh x (h.mem_iff.mp hx) y (h.mem_iff.mp hy)
  cases h1 : allEqHead l₁ <;> cases h2 : allEqHead l₂ <;> try rfl
  · rw [h1, h2] at hiff
    exact absurd (hiff.mpr rfl) (by simp)
  · rw [h1, h2] at hiff
    exact absurd (hiff.mp rfl) (by simp)

theorem any_perm {α : Type} {l₁ l₂ : List α} (h : l₁.Perm l₂) (f : α → Bool) :
    l₁.any f = l₂.any f := by
  have hiff : l₁.any f = true ↔ l₂.any f = true := by
    rw [List.any_eq_true, List.any_eq_true]
    constructor <;> rintro ⟨x, hx, hf⟩
    · exact ⟨x, h.mem_iff.mp hx, hf⟩
    · exact ⟨x, h.mem_iff.mpr hx, hf⟩
  cases h1 : l₁.any f <;> cases h2 : l₂.any f <;> try rfl
  · rw [h1, h2] at hiff
    exact absurd (hiff.mpr rfl) (by simp)
  · rw [h1, h2] at hiff
    exact absurd (hiff.mp rfl) (by simp)

theorem merge_perm_invariant (fs : String → OebinData) (settingsOf : String → SettingsXml)
    (excl : List String) {p₁ p₂ : List String} (hperm : p₁.Perm p₂) :
    get_merged_oebin_file fs settingsOf excl p₁
      = get_merged_oebin_file fs settingsOf excl p₂ := by
  have hlen := hperm.length_eq
  by_cases h1 : p₁.length = 1
  · obtain ⟨x, hx⟩ : ∃ x, p₁ = [x] := by
      cases p₁ with
      | nil => simp at h1
      | cons a t =>
        cases t with
        | nil => exact ⟨a, rfl⟩
        | cons b t' => simp at h1
    have hx2 : p₂ = [x] := by
      rw [hx] at hperm
      exact List.perm_singleton.mp hperm.symm
    rw [hx, hx2]
  · have h1' : ¬ p₂.length = 1 := by omega
    haveI hTot : IsTotal String (fun a b : String => a.toList ≤ b.toList) :=
      ⟨fun a b => le_total a.toList b.toList⟩
    haveI hTrans : IsTrans String (fun a b : String => a.toList ≤ b.toList) :=
      ⟨fun _ _ _ => le_trans⟩
    haveI hAnti : IsAntisymm String (fun a b : String => a.toList ≤ b.toList) :=
      ⟨fun a b h1 h2 => by
        cases a with
        | mk d1 =>
          cases b with
          | mk d2 =>
            congr 1
            exact le_antisymm h1 h2⟩
    have hsorteq : List.insertionSort (fun a b : String => a.toList ≤ b.toList) p₁
        = List.insertionSort (fun a b : String => a.toList ≤ b.toList) p₂ := by
      refine List.eq_of_perm_of_sorted ?_ (List.sorted_insertionSort _ p₁)
        (List.sorted_insertionSort _ p₂)
      exact (List.perm_insertionSort _ p₁).trans
        (hperm.trans (List.perm_insertionSort _ p₂).symm)
    simp only [get_merged_oebin_file, assert_xml_files_match]
    rw [if_neg h1, if_neg h1', any_perm hperm _, hsorteq,
      allEqHead_perm (hperm.map settingsOf),
      allEqHead_perm ((hperm.map settingsOf).map get_settings_xml_data)]

/-- C5: for two or more manifest paths (all with the `.oebin` suffix),
the merge fails with the settings-mismatch error exactly when the
per-node settings files are neither checksum-identical nor structurally
identical after parsing (which ignores the creation-date field); the
`Except` result carries no partial merge in that case. -/
theorem C5_settings_mismatch (fs : String → OebinData)
    (settingsOf : String → SettingsXml) (excl : List String) (paths : List String)
    (h2 : 2 ≤ paths.length)
    (hsuffix : ∀ p ∈ paths, pyEndsWith oebinSuffix.toList p.toList = true) :
    (get_merged_oebin_file fs settingsOf excl paths = Except.error MergeErr.settingsMismatch
      ↔ ¬ (allEqHead (paths.map settingsOf) = true
            ∨ allEqHead ((paths.map settingsOf).map get_settings_xml_data) = true)) := by
  have hany : paths.any (fun p => !(pyEndsWith oebinSuffix.toList p.toList)) = false := by
    rw [List.any_eq_false]
    intro p hp
    rw [hsuffix p hp]
    simp
  simp only [get_merged_oebin_file, assert_xml_files_match]
  rw [if_neg (by omega : ¬ paths.length = 1), hany]
  simp only [Bool.false_eq_true, if_false]
  by_cases hm : (allEqHead (paths.map settingsOf)
      || allEqHead ((paths.map settingsOf).map get_settings_xml_data)) = true
  · rw [hm]
    simp only [Bool.not_true, Bool.false_eq_true, if_false]
    rw [Bool.or_eq_true] at hm
    constructor
    · intro hres
      split at hres <;> cases hres
    · intro hcon
      exact absurd hm hcon
  · rw [Bool.eq_false_iff.mpr hm]
    rw [Bool.or_eq_true] at hm
    simp only [Bool.not_false, if_true]
    exact iff_of_true (by trivial) hm

/-- Witness for C5: two manifests whose settings files differ in content
even after ignoring the creation date; the merge reports the settings
mismatch. -/
theorem C5_settings_mismatch_witness :
    get_merged_oebin_file (fun _ => [("continuous", [⟨"x", 0⟩])])
        (fun p => if p = "a.oebin" then (0, 1) else (0, 2)) ([])
        (["a.oebin", "b.oebin"])
      = Except.error MergeErr.settingsMismatch := by
  have h := C5_settings_mismatch (fun _ => [("continuous", [⟨"x", 0⟩])])
    (fun p => if p = "a.oebin" then (0, 1) else (0, 2)) ([])
    (["a.oebin", "b.oebin"]) (by decide) (by decide)
  exact h.mpr (by decide)

theorem lookup_none_of_fresh {m : OebinData} {k : String}
    (h : ∀ e ∈ m, e.1 ≠ k) : List.lookup k m = none := by
  induction m with
  | nil => rfl
  | cons e rest ih =>
    obtain ⟨k', v⟩ := e
    have hk : k' ≠ k := h (k', v) (List.mem_cons_self _ _)
    rw [List.lookup_cons]
    rw [show (k == k') = false from beq_eq_false_iff_ne.mpr (fun hh => hk hh.symm)]
    exact ih (fun e he => h e (List.mem_cons_of_mem _ he))

theorem appendAt_fresh {m : OebinData} {k : String} {item : Desc}
    (h : ∀ e ∈ m, e.1 ≠ k) : appendAt m k item = m ++ [(k, [item])] := by
  induction m with
  | nil => rfl
  | cons e rest ih =>
    obtain ⟨k', v⟩ := e
    have hk : k' ≠ k := h (k', v) (List.mem_cons_self _ _)
    simp only [appendAt, if_neg hk, List.cons_append]
    rw [ih (fun e he => h e (List.mem_cons_of_mem _ he))]

theorem lookup_append_self {m : OebinData} {k : String} {l : List Desc}
    (h : ∀ e ∈ m, e.1 ≠ k) : List.lookup k (m ++ [(k, l)]) = some l := by
  induction m with
  | nil => simp
  | cons e rest ih =>
    obtain ⟨k', v⟩ := e
    have hk : k' ≠ k := h (k', v) (List.mem_cons_self _ _)
    rw [List.cons_append, List.lookup_cons]
    rw [show (k == k') = false from beq_eq_false_iff_ne.mpr (fun hh => hk hh.symm)]
    exact ih (fun e he => h e (List.mem_cons_of_mem _ he))

theorem appendAt_append_self {m : OebinData} {k : String} {l : List Desc} {item : Desc}
    (h : ∀ e ∈ m, e.1 ≠ k) :
    appendAt (m ++ [(k, l)]) k item = m ++ [(k, l ++ [item])] := by
  induction m with
  | nil => simp [appendAt]
  | cons e rest ih =>
    obtain ⟨k', v⟩ := e
    have hk : k' ≠ k := h (k', v) (List.mem_cons_self _ _)
    simp only [List.cons_append, appendAt, if_neg hk, List.append_eq]
    rw [ih (fun e he => h e (List.mem_cons_of_mem _ he))]

theorem insertItems_go {excl : List String} {m : OebinData} {k : String} :
    ∀ (rest pref : List Desc), (pref ++ rest).Nodup →
      (∀ i ∈ rest, excludedMatch excl i = false) →
      (∀ e ∈ m, e.1 ≠ k) →
      insertItems excl (m ++ [(k, pref)]) k rest = m ++ [(k, pref ++ rest)] := by
  intro rest
  induction rest with
  | nil =>
    intro pref _ _ _
    simp [insertItems]
  | cons item rest' ih =>
    intro pref hnd hexcl hm
    simp only [insertItems]
    rw [lookup_append_self hm]
    have hnotmem : item ∉ pref := by
      intro hmem
      rcases List.nodup_append.mp hnd with ⟨_, _, hdisj⟩
      exact hdisj hmem (List.mem_cons_self _ _)
    rw [Option.getD_some, if_neg hnotmem, hexcl item (List.mem_cons_self _ _)]
    simp only [Bool.false_eq_true, if_false]
    rw [appendAt_append_self hm]
    have hnd' : ((pref ++ [item]) ++ rest').Nodup := by
      have : (pref ++ [item]) ++ rest' = pref ++ item :: rest' := by simp
      rw [this]
      exact hnd
    have := ih (pref ++ [item]) hnd'
      (fun i hi => hexcl i (List.mem_cons_of_mem _ hi)) hm
    rw [this]
    simp

theorem insertItems_fresh {excl : List String} {m : OebinData} {k : String}
    {lst : List Desc} (hm : ∀ e ∈ m, e.1 ≠ k) (hne : lst ≠ []) (hnd : lst.Nodup)
    (hexcl : ∀ i ∈ lst, excludedMatch excl i = false) :
    insertItems excl m k lst = m ++ [(k, lst)] := by
  cases lst with
  | nil => exact absurd rfl hne
  | cons item rest =>
    simp only [insertItems]
    rw [lookup_none_of_fresh hm]
    simp only [Option.getD_none, List.not_mem_nil, if_false]
    rw [hexcl item (List.mem_cons_self _ _)]
    simp only [Bool.false_eq_true, if_false]
    rw [appendAt_fresh hm]
    have := @insertItems_go excl m k rest ([item]) (by simpa using hnd)
      (fun i hi => hexcl i (List.mem_cons_of_mem _ hi)) hm
    rw [this]
    rfl

theorem mergeFile_disjoint {excl : List String} {fs0 : Unit} :
    ∀ (d : OebinData) (m : OebinData),
      (∀ e ∈ d, ∀ e' ∈ m, e'.1 ≠ e.1) →
      (d.map (fun e => e.1)).Nodup →
      (∀ e ∈ d, e.2 ≠ [] ∧ e.2.Nodup ∧ ∀ i ∈ e.2, excludedMatch excl i = false) →
      mergeFile excl m d = m ++ d := by
  intro d
  induction d with
  | nil =>
    intro m _ _ _
    simp [mergeFile]
  | cons e d' ih =>
    intro m hfresh hnd hclean
    obtain ⟨k, l⟩ := e
    simp only [mergeFile, List.foldl_cons]
    rw [lookup_none_of_fresh (fun e' he' => hfresh (k, l) (List.mem_cons_self _ _) e' he')]
    obtain ⟨hne, hndl, hexcl⟩ := hclean (k, l) (List.mem_cons_self _ _)
    rw [insertItems_fresh
      (fun e' he' => hfresh (k, l) (List.mem_cons_self _ _) e' he') hne hndl hexcl]
    have hk_notin : k ∉ d'.map (fun e => e.1) := by
      simp only [List.map_cons, List.nodup_cons] at hnd
      exact hnd.1
    have hih := ih (m ++ [(k, l)]) ?hf ?hn ?hc
    case hf =>
      intro e he e' he'
      rcases List.mem_append.mp he' with h1 | h1
      · exact hfresh e (List.mem_cons_of_mem _ he) e' h1
      · rcases List.mem_singleton.mp h1 with rfl
        intro hc
        apply hk_notin
        rw [show k = e.1 from hc]
        exact List.mem_map_of_mem (fun e => e.1) he
    case hn =>
      simp only [List.map_cons, List.nodup_cons] at hnd
      exact hnd.2
    case hc => exact fun e he => hclean e (List.mem_cons_of_mem _ he)
    simp only [mergeFile] at hih
    rw [hih]
    simp

theorem lookup_self_of_nodup :
    ∀ {d : OebinData}, (d.map (fun e => e.1)).Nodup →
      ∀ e ∈ d, List.lookup e.1 d = some e.2 := by
  intro d
  induction d with
  | nil => intro _ e he; cases he
  | cons f d' ih =>
    intro hnd e he
    obtain ⟨k', v'⟩ := f
    rcases List.mem_cons.mp he with h | h
    · subst h
      simp
    · rw [List.lookup_cons]
      have hk : e.1 ≠ k' := by
        simp only [List.map_cons, List.nodup_cons] at hnd
        intro hc
        exact hnd.1 (hc ▸ List.mem_map_of_mem (fun e => e.1) h)
      rw [show (e.1 == k') = false from beq_eq_false_iff_ne.mpr hk]
      have hnd' : (d'.map (fun e => e.1)).Nodup := by
        simp only [List.map_cons, List.nodup_cons] at hnd
        exact hnd.2
      exact ih hnd' e h

theorem mergeFile_id {excl : List String} :
    ∀ (d : OebinData) (m : OebinData),
      (∀ e ∈ d, List.lookup e.1 m = some e.2) →
      mergeFile excl m d = m := by
  intro d
  induction d with
  | nil => intro m _; rfl
  | cons e d' ih =>
    intro m hl
    simp only [mergeFile, List.foldl_cons]
    rw [hl e (List.mem_cons_self _ _)]
    simp only [if_pos rfl]
    have := ih m (fun e' he' => hl e' (List.mem_cons_of_mem _ he'))
    simp only [mergeFile] at this
    exact this

theorem foldl_merge_self {excl : List String} {fs : String → OebinData} {D : OebinData}
    (hnd : (D.map (fun e => e.1)).Nodup) :
    ∀ l : List String, (∀ x ∈ l, fs x = D) →
      List.foldl (fun m p => mergeFile excl m (fs p)) D l = D := by
  intro l
  induction l with
  | nil => intro _; rfl
  | cons x l' ih =>
    intro hfs
    simp only [List.foldl_cons]
    rw [hfs x (List.mem_cons_self _ _),
      mergeFile_id D D (lookup_self_of_nodup hnd)]
    exact ih (fun y hy => hfs y (List.mem_cons_of_mem _ hy))

theorem foldl_merge_clean {excl : List String} {fs : String → OebinData} {D : OebinData}
    (hnd : (D.map (fun e => e.1)).Nodup)
    (hclean : ∀ e ∈ D, e.2 ≠ [] ∧ e.2.Nodup ∧ ∀ i ∈ e.2, excludedMatch excl i = false) :
    ∀ l : List String, l ≠ [] → (∀ x ∈ l, fs x = D) →
      List.foldl (fun m p => mergeFile excl m (fs p)) [] l = D := by
  intro l hne hfs
  cases l with
  | nil => exact absurd rfl hne
  | cons x l' =>
    simp only [List.foldl_cons]
    rw [hfs x (List.mem_cons_self _ _)]
    have hfirst : mergeFile excl [] D = [] ++ D := by
      exact @mergeFile_disjoint excl () D []
        (fun e _ e' he' => absurd he' (List.not_mem_nil e')) hnd hclean
    rw [hfirst]
    simp only [List.nil_append]
    exact foldl_merge_self hnd l' (fun y hy => hfs y (List.mem_cons_of_mem _ hy))

theorem appendAt_wf {excl : List String} :
    ∀ (m : OebinData) (k : String) (item : Desc),
      (∀ e ∈ m, e.2.Nodup ∧ ∀ i ∈ e.2, excludedMatch excl i = false) →
      item ∉ (List.lookup k m).getD [] →
      excludedMatch excl item = false →
      ∀ e ∈ appendAt m k item, e.2.Nodup ∧ ∀ i ∈ e.2, excludedMatch excl i = false := by
  intro m
  induction m with
  | nil =>
    intro k item _ _ hexcl e he
    simp only [appendAt, List.mem_singleton] at he
    subst he
    refine ⟨by simp, ?_⟩
    intro i hi
    rw [List.mem_singleton.mp hi]
    exact hexcl
  | cons f rest ih =>
    intro k item hwf hcur hexcl e he
    obtain ⟨k', l⟩ := f
    by_cases hk : k' = k
    · subst hk
      simp only [appendAt, if_pos rfl] at he
      rcases List.mem_cons.mp he with h | h
      · subst h
        have hl := hwf (k', l) (List.mem_cons_self _ _)
        have hmem : item ∉ l := by
          rw [List.lookup_cons_self, Option.getD_some] at hcur
          exact hcur
        refine ⟨?_, ?_⟩
        · simp only [List.nodup_append, List.nodup_cons, List.not_mem_nil,
            List.nodup_nil]
          refine ⟨hl.1, by simp, ?_⟩
          intro a ha hb
          rw [List.mem_singleton.mp hb] at ha
          exact hmem ha
        · intro i hi
          rcases List.mem_append.mp hi with h1 | h1
          · exact hl.2 i h1
          · rw [List.mem_singleton.mp h1]
            exact hexcl
      · exact hwf e (List.mem_cons_of_mem _ h)
    · simp only [appendAt, if_neg hk] at he
      rcases List.mem_cons.mp he with h | h
      · subst h
        exact hwf (k', l) (List.mem_cons_self _ _)
      · refine ih k item (fun e' he' => hwf e' (List.mem_cons_of_mem _ he')) ?_ hexcl e h
        rw [List.lookup_cons] at hcur
        rw [show (k == k') = false from beq_eq_false_iff_ne.mpr (fun hh => hk hh.symm)] at hcur
        exact hcur

theorem insertItems_wf {excl : List String} :
    ∀ (lst : List Desc) (m : OebinData) (k : String),
      (∀ e ∈ m, e.2.Nodup ∧ ∀ i ∈ e.2, excludedMatch excl i = false) →
      ∀ e ∈ insertItems excl m k lst, e.2.Nodup ∧ ∀ i ∈ e.2, excludedMatch excl i = false := by
  intro lst
  induction lst with
  | nil => intro m k hwf e he; exact hwf e he
  | cons item rest ih =>
    intro m k hwf e he
    simp only [insertItems] at he
    by_cases h1 : item ∈ (List.lookup k m).getD []
    · rw [if_pos h1] at he
      exact ih m k hwf e he
    · rw [if_neg h1] at he
      by_cases h2 : excludedMatch excl item = true
      · rw [if_pos h2] at he
        exact ih m k hwf e he
      · have h2' : excludedMatch excl item = false := Bool.eq_false_iff.mpr h2
        rw [if_neg h2] at he
        exact ih _ k (appendAt_wf m k item hwf h1 h2') e he

theorem mergeFile_wf {excl : List String} :
    ∀ (d : OebinData) (m : OebinData),
      (∀ e ∈ m, e.2.Nodup ∧ ∀ i ∈ e.2, excludedMatch excl i = false) →
      ∀ e ∈ mergeFile excl m d, e.2.Nodup ∧ ∀ i ∈ e.2, excludedMatch excl i = false := by
  intro d
  induction d with
  | nil => intro m hwf e he; exact hwf e he
  | cons f d' ih =>
    intro m hwf e he
    simp only [mergeFile, List.foldl_cons] at he
    have hwf' : ∀ e ∈ (match List.lookup f.1 m with
        | some l => if l = f.2 then m else insertItems excl m f.1 f.2
        | none => insertItems excl m f.1 f.2),
        e.2.Nodup ∧ ∀ i ∈ e.2, excludedMatch excl i = false := by
      cases List.lookup f.1 m with
      | none => exact insertItems_wf f.2 m f.1 hwf
      | some l =>
        by_cases hle : l = f.2
        · simp only [if_pos hle]
          exact hwf
        · simp only [if_neg hle]
          exact insertItems_wf f.2 m f.1 hwf
    exact ih _ hwf' e he

theorem foldl_merge_wf {excl : List String} {fs : String → OebinData} :
    ∀ (l : List String) (m : OebinData),
      (∀ e ∈ m, e.2.Nodup ∧ ∀ i ∈ e.2, excludedMatch excl i = false) →
      ∀ e ∈ List.foldl (fun m p => mergeFile excl m (fs p)) m l,
        e.2.Nodup ∧ ∀ i ∈ e.2, excludedMatch excl i = false := by
  intro l
  induction l with
  | nil => intro m hwf e he; exact hwf e he
  | cons x l' ih =>
    intro m hwf e he
    simp only [List.foldl_cons] at he
    exact ih (mergeFile excl m (fs x)) (mergeFile_wf (fs x) m hwf) e he

/-- C4 counterexample: a manifest whose `continuous` list contains the
same descriptor twice.  Merging the manifest with an identical copy of
itself deduplicates the list, so the result differs from the manifest
alone, refuting the claim's self-merge conjunct. -/
theorem C4_merge_counterexample :
    get_merged_oebin_file (fun _ => [("continuous", [⟨"x", 0⟩, ⟨"x", 0⟩])])
        (fun _ => (0, 0)) ([]) (["a.oebin", "b.oebin"])
      = Except.ok ([("continuous", [⟨"x", 0⟩])])
    ∧ get_merged_oebin_file (fun _ => [("continuous", [⟨"x", 0⟩, ⟨"x", 0⟩])])
        (fun _ => (0, 0)) ([]) (["a.oebin"])
      = Except.ok ([("continuous", [⟨"x", 0⟩, ⟨"x", 0⟩])])
    ∧ ([("continuous", [(⟨"x", 0⟩ : Desc)])] : OebinData)
      ≠ [("continuous", [⟨"x", 0⟩, ⟨"x", 0⟩])] := by
  refine ⟨rfl, rfl, by decide⟩

/-- C4 (amended): `get_merged_oebin_file` is order-independent — any
permutation of the supplied paths yields the same result; merging a
manifest with an identical copy of itself yields the manifest's own
content provided its category lists are non-empty, duplicate-free and
contain no excluded folder name (the merge deduplicates, filters
exclusions, and drops empty categories, so those conditions are
necessary); and in every merged result (two or more paths) no category
list contains two descriptors equal by full value and no kept descriptor
matches an excluded name case-insensitively. -/
theorem C4_merge_amended :
    (∀ (fs : String → OebinData) (settingsOf : String → SettingsXml)
        (excl : List String) (p₁ p₂ : List String), p₁.Perm p₂ →
        get_merged_oebin_file fs settingsOf excl p₁
          = get_merged_oebin_file fs settingsOf excl p₂)
    ∧ (∀ (fs : String → OebinData) (settingsOf : String → SettingsXml)
        (excl : List String) (p q : String) (D : OebinData),
        fs p = D → fs q = D → settingsOf p = settingsOf q →
        pyEndsWith oebinSuffix.toList p.toList = true →
        pyEndsWith oebinSuffix.toList q.toList = true →
        D ≠ [] → (D.map (fun e => e.1)).Nodup →
        (∀ e ∈ D, e.2 ≠ [] ∧ e.2.Nodup ∧ ∀ i ∈ e.2, excludedMatch excl i = false) →
        get_merged_oebin_file fs settingsOf excl ([p, q]) = Except.ok D
          ∧ get_merged_oebin_file fs settingsOf excl ([p]) = Except.ok D)
    ∧ (∀ (fs : String → OebinData) (settingsOf : String → SettingsXml)
        (excl : List String) (paths : List String) (M : OebinData),
        2 ≤ paths.length →
        get_merged_oebin_file fs settingsOf excl paths = Except.ok M →
        ∀ e ∈ M, e.2.Nodup ∧ ∀ item ∈ e.2, excludedMatch excl item = false) := by
  refine ⟨fun fs st excl p₁ p₂ h => merge_perm_invariant fs st excl h, ?_, ?_⟩
  · intro fs st excl p q D hp hq hst hps hqs hD hnd hclean
    constructor
    · have hsort := List.perm_insertionSort
        (fun a b : String => a.toList ≤ b.toList) ([p, q])
      have hsne : List.insertionSort (fun a b : String => a.toList ≤ b.toList) ([p, q]) ≠ [] := by
        intro hc
        have := hsort.length_eq
        rw [hc] at this
        simp at this
      have hfs : ∀ x ∈ List.insertionSort
          (fun a b : String => a.toList ≤ b.toList) ([p, q]), fs x = D := by
        intro x hx
        rcases List.mem_pair.mp (hsort.mem_iff.mp hx) with h | h
        · rw [h, hp]
        · rw [h, hq]
      simp only [get_merged_oebin_file]
      rw [if_neg (by simp), if_neg ?hsuf, if_neg ?hset]
      case hsuf =>
        intro hany
        rw [List.any_eq_true] at hany
        obtain ⟨x, hx, hbad⟩ := hany
        rcases List.mem_pair.mp hx with h | h
        · subst h
          rw [hps] at hbad
          cases hbad
        · subst h
          rw [hqs] at hbad
          cases hbad
      case hset =>
        simp [assert_xml_files_match, allEqHead, hst]
      rw [foldl_merge_clean hnd hclean _ hsne hfs, if_neg hD]
    · simp only [get_merged_oebin_file]
      rw [if_pos (show ([p] : List String).length = 1 from rfl)]
      show Except.ok (fs p) = Except.ok D
      rw [hp]
  · intro fs st excl paths M h2 hres
    simp only [get_merged_oebin_file] at hres
    rw [if_neg (by omega)] at hres
    split at hres
    · cases hres
    · split at hres
      · cases hres
      · split at hres
        · cases hres
        · have hM : List.foldl (fun m p => mergeFile excl m (fs p)) []
              (List.insertionSort (fun a b : String => a.toList ≤ b.toList) paths) = M := by
            injection hres
          rw [← hM]
          exact foldl_merge_wf _ [] (fun e he => absurd he (List.not_mem_nil e))

/-- Witness for C4: the amended self-merge theorem applied to a concrete
clean manifest (one `continuous` descriptor, no duplicates, nothing
excluded): merging `a.oebin` with an identical `b.oebin` equals the
manifest alone. -/
theorem C4_merge_amended_witness :
    get_merged_oebin_file (fun _ => [("continuous", [⟨"x", 0⟩])])
        (fun _ => (0, 0)) ([]) (["a.oebin", "b.oebin"])
      = Except.ok ([("continuous", [⟨"x", 0⟩])])
    ∧ get_merged_oebin_file (fun _ => [("continuous", [⟨"x", 0⟩])])
        (fun _ => (0, 0)) ([]) (["a.oebin"])
      = Except.ok ([("continuous", [⟨"x", 0⟩])]) :=
  C4_merge_amended.2.1 (fun _ => [("continuous", [⟨"x", 0⟩])]) (fun _ => (0, 0)) ([])
    ("a.oebin") ("b.oebin") ([("continuous", [⟨"x", 0⟩])])
    rfl rfl rfl rfl rfl (by decide) (by decide) (by decide)

/-! ### Lemmas for the PXI device loop and sync reconciliation -/

/-- C2 counterexample: a device listed in the log whose continuous folder
exists but whose events folder has no `TTL*` subfolder: the generator
raises (`next` on an empty glob, StopIteration surfaced as RuntimeError
by PEP 479) instead of yielding a stream without the device. -/
theorem C2_missing_ttl_counterexample :
    get_ephys_timing_on_pxi
        ([⟨"ProbeA", 100, 30000, true, [], 100, [], [], none⟩]) none
      = Except.error PXIErr.noTTL
    ∧ ∀ l, get_ephys_timing_on_pxi
        ([⟨"ProbeA", 100, 30000, true, [], 100, [], [], none⟩]) none ≠ Except.ok l := by
  refine ⟨rfl, fun l h => ?_⟩
  rw [show get_ephys_timing_on_pxi
      ([⟨"ProbeA", 100, 30000, true, [], 100, [], [], none⟩]) none
      = Except.error PXIErr.noTTL from rfl] at h
  cases h

/-- C2 (amended): a device listed in the acquisition log that fails the
name filter or whose continuous-data folder does not exist on disk is
silently skipped (absent from the yielded stream, no exception); but
when a reached device's continuous folder exists and its events folder
contains no `TTL*` subfolder, `get_ephys_timing_on_pxi` raises
(`StopIteration` from `next`, a `RuntimeError` inside the generator)
rather than skipping the device. -/
theorem C2_missing_ttl_amended :
    (∀ (devices : List PXIDevEnv) (f : Option String),
        (∀ d ∈ devices, matchesFilter f d.label = true → d.continuousExists = true →
          d.ttlGlob ≠ []) →
        get_ephys_timing_on_pxi devices f
          = Except.ok ((devices.filter
              (fun d => matchesFilter f d.label && d.continuousExists)).map mkPXIEntry))
    ∧ (∀ (pre : List PXIDevEnv) (d : PXIDevEnv) (post : List PXIDevEnv) (f : Option String),
        (∀ p ∈ pre, matchesFilter f p.label = true → p.continuousExists = true →
          p.ttlGlob ≠ []) →
        matchesFilter f d.label = true → d.continuousExists = true → d.ttlGlob = [] →
        get_ephys_timing_on_pxi (pre ++ d :: post) f = Except.error PXIErr.noTTL) := by
  constructor
  · intro devices f
    induction devices with
    | nil => intro _; rfl
    | cons d rest ih =>
      intro hgood
      have ihr := ih (fun x hx => hgood x (List.mem_cons_of_mem _ hx))
      by_cases hm : matchesFilter f d.label = true
      · by_cases hc : d.continuousExists = true
        · have hglob : d.ttlGlob ≠ [] := hgood d (List.mem_cons_self _ _) hm hc
          cases hg : d.ttlGlob with
          | nil => exact absurd hg hglob
          | cons t ts =>
            simp only [get_ephys_timing_on_pxi, hm, hc, Bool.not_true, Bool.false_eq_true,
              if_false, hg]
            rw [ihr]
            simp [List.filter_cons, hm, hc, Except.map]
        · have hc' : d.continuousExists = false := Bool.eq_false_iff.mpr hc
          simp only [get_ephys_timing_on_pxi, hm, hc', Bool.not_true, Bool.not_false,
            Bool.false_eq_true, if_false, if_true]
          rw [ihr]
          simp [List.filter_cons, hc']
      · have hm' : matchesFilter f d.label = false := Bool.eq_false_iff.mpr hm
        simp only [get_ephys_timing_on_pxi, hm', Bool.not_false, if_true]
        rw [ihr]
        simp [List.filter_cons, hm']
  · intro pre d post f
    induction pre with
    | nil =>
      intro _ hm hc hglob
      simp only [List.nil_append, get_ephys_timing_on_pxi, hm, hc, Bool.not_true,
        Bool.false_eq_true, if_false, hglob]
    | cons p pre' ih =>
      intro hgood hm hc hglob
      have ihr := ih (fun x hx => hgood x (List.mem_cons_of_mem _ hx)) hm hc hglob
      rw [List.cons_append]
      by_cases hpm : matchesFilter f p.label = true
      · by_cases hpc : p.continuousExists = true
        · have hpg : p.ttlGlob ≠ [] := hgood p (List.mem_cons_self _ _) hpm hpc
          cases hg : p.ttlGlob with
          | nil => exact absurd hg hpg
          | cons t ts =>
            simp only [get_ephys_timing_on_pxi, hpm, hpc, Bool.not_true, Bool.false_eq_true,
              if_false, hg]
            rw [ihr]
            rfl
        · have hpc' : p.continuousExists = false := Bool.eq_false_iff.mpr hpc
          simp only [get_ephys_timing_on_pxi, hpm, hpc', Bool.not_true, Bool.not_false,
            Bool.false_eq_true, if_false, if_true]
          exact ihr
      · have hpm' : matchesFilter f p.label = false := Bool.eq_false_iff.mpr hpm
        simp only [get_ephys_timing_on_pxi, hpm', Bool.not_false, if_true]
        exact ihr

/-- Witness for C2 (amended): a log listing a device with no on-disk
continuous folder (skipped) followed by a complete device (yielded). -/
theorem C2_missing_ttl_witness :
    get_ephys_timing_on_pxi
        ([⟨"ProbeA", 0, 30000, false, [], 0, [], [], none⟩,
          ⟨"ProbeB", 5, 30000, true, (["TTL_1"]), 5, [7], [1], none⟩]) none
      = Except.ok ((([⟨"ProbeA", 0, 30000, false, [], 0, [], [], none⟩,
          ⟨"ProbeB", 5, 30000, true, (["TTL_1"]), 5, [7], [1], none⟩] :
            List PXIDevEnv).filter
          (fun d => matchesFilter none d.label && d.continuousExists)).map mkPXIEntry) :=
  C2_missing_ttl_amended.1
    ([⟨"ProbeA", 0, 30000, false, [], 0, [], [], none⟩,
      ⟨"ProbeB", 5, 30000, true, (["TTL_1"]), 5, [7], [1], none⟩]) none (by decide)

/-- C6: for every device processed by `get_ephys_timing_on_sync`, the
yielded timing has `start_time` equal to the negation of the time offset
returned by the external offset/rate estimator (invoked with acquisition
start index 0 and the device's nominal rate), and `sampling_rate` equal
to the estimator's corrected rate — unless that rate is NaN or
non-finite, in which case `sampling_rate` is the device's nominal rate
and no exception is raised for that device. -/
theorem C6_sync_reconciliation
    (extract : List ℚ → List ℚ → ℚ → Barcodes)
    (estimate : Barcodes → Barcodes → Nat → ℚ → FVal × FVal)
    (syncBarcodes : Barcodes) (devices : List EphysTimingInfoOnPXI)
    (hne : ∀ info ∈ devices, info.device.ttl_sample_numbers ≠ []) :
    ∃ result, get_ephys_timing_on_sync extract estimate syncBarcodes devices
        = Except.ok result
      ∧ result.length = devices.length
      ∧ (∀ (i : Nat) info, devices[i]? = some info →
          ∀ lastSample, info.device.ttl_sample_numbers.getLast? = some lastSample →
          result[i]? = some
            { deviceName := info.device.name
              sampling_rate :=
                if (estimate syncBarcodes
                      (extract (onTimes info) (offTimes info)
                        ((lastSample : ℚ) / info.sampling_rate)) 0 info.sampling_rate).2.isNan
                    || !(estimate syncBarcodes
                      (extract (onTimes info) (offTimes info)
                        ((lastSample : ℚ) / info.sampling_rate)) 0 info.sampling_rate).2.isFinite
                then FVal.finite info.sampling_rate
                else (estimate syncBarcodes
                      (extract (onTimes info) (offTimes info)
                        ((lastSample : ℚ) / info.sampling_rate)) 0 info.sampling_rate).2
              start_time := (estimate syncBarcodes
                    (extract (onTimes info) (offTimes info)
                      ((lastSample : ℚ) / info.sampling_rate)) 0 info.sampling_rate).1.neg }) := by
  induction devices with
  | nil =>
    refine ⟨[], rfl, rfl, ?_⟩
    intro i info h
    simp at h
  | cons info rest ih =>
    obtain ⟨res', hres', hlen', hidx'⟩ :=
      ih (fun x hx => hne x (List.mem_cons_of_mem _ hx))
    have hinfone : info.device.ttl_sample_numbers ≠ [] :=
      hne info (List.mem_cons_self _ _)
    obtain ⟨lastS, hlast⟩ : ∃ l, info.device.ttl_sample_numbers.getLast? = some l := by
      cases hx : info.device.ttl_sample_numbers.getLast? with
      | none =>
        rw [List.getLast?_eq_none_iff] at hx
        exact absurd hx hinfone
      | some l => exact ⟨l, rfl⟩
    refine ⟨{ deviceName := info.device.name,
              sampling_rate :=
                if (estimate syncBarcodes
                      (extract (onTimes info) (offTimes info)
                        ((lastS : ℚ) / info.sampling_rate)) 0 info.sampling_rate).2.isNan
                    || !(estimate syncBarcodes
                      (extract (onTimes info) (offTimes info)
                        ((lastS : ℚ) / info.sampling_rate)) 0 info.sampling_rate).2.isFinite
                then FVal.finite info.sampling_rate
                else (estimate syncBarcodes
                      (extract (onTimes info) (offTimes info)
                        ((lastS : ℚ) / info.sampling_rate)) 0 info.sampling_rate).2,
              start_time := (estimate syncBarcodes
                    (extract (onTimes info) (offTimes info)
                      ((lastS : ℚ) / info.sampling_rate)) 0 info.sampling_rate).1.neg } :: res',
      ?_, ?_, ?_⟩
    · simp only [get_ephys_timing_on_sync, hlast, hres']
      rfl
    · simp [hlen']
    · intro i info' hinfo' lastSample' hlast'
      cases i with
      | zero =>
        simp only [List.getElem?_cons_zero] at hinfo'
        injection hinfo' with hinfo'
        subst hinfo'
        rw [hlast] at hlast'
        injection hlast' with hlast'
        subst hlast'
        simp only [List.getElem?_cons_zero]
      | succ i' =>
        simp only [List.getElem?_cons_succ] at hinfo' ⊢
        exact hidx' i' info' hinfo' lastSample' hlast'

/-- Witness for C6: one device with a single TTL sample and an estimator
returning a NaN rate; the yielded timing negates the offset and falls
back to the nominal rate. -/
theorem C6_sync_reconciliation_witness :
    ∃ result, get_ephys_timing_on_sync (fun _ _ _ => ⟨[], []⟩)
        (fun _ _ _ _ => (FVal.finite 2, FVal.nan)) ⟨[], []⟩
        ([⟨⟨"ProbeA", "TTL_1", none, [5], [1]⟩, 5, 30000⟩])
        = Except.ok result
      ∧ result.length = ([⟨⟨"ProbeA", "TTL_1", none, [5], [1]⟩, 5, 30000⟩] :
          List EphysTimingInfoOnPXI).length
      ∧ (∀ (i : Nat) info,
          ([⟨⟨"ProbeA", "TTL_1", none, [5], [1]⟩, 5, 30000⟩] :
            List EphysTimingInfoOnPXI)[i]? = some info →
          ∀ lastSample, info.device.ttl_sample_numbers.getLast? = some lastSample →
          result[i]? = some
            { deviceName := info.device.name
              sampling_rate :=
                if ((fun (_ : Barcodes) (_ : Barcodes) (_ : Nat) (_ : ℚ) =>
                      (FVal.finite 2, FVal.nan)) ⟨[], []⟩
                      ((fun (_ : List ℚ) (_ : List ℚ) (_ : ℚ) => (⟨[], []⟩ : Barcodes))
                        (onTimes info) (offTimes info)
                        ((lastSample : ℚ) / info.sampling_rate)) 0 info.sampling_rate).2.isNan
                    || !((fun (_ : Barcodes) (_ : Barcodes) (_ : Nat) (_ : ℚ) =>
                      (FVal.finite 2, FVal.nan)) ⟨[], []⟩
                      ((fun (_ : List ℚ) (_ : List ℚ) (_ : ℚ) => (⟨[], []⟩ : Barcodes))
                        (onTimes info) (offTimes info)
                        ((lastSample : ℚ) / info.sampling_rate)) 0 info.sampling_rate).2.isFinite
                then FVal.finite info.sampling_rate
                else ((fun (_ : Barcodes) (_ : Barcodes) (_ : Nat) (_ : ℚ) =>
                      (FVal.finite 2, FVal.nan)) ⟨[], []⟩
                      ((fun (_ : List ℚ) (_ : List ℚ) (_ : ℚ) => (⟨[], []⟩ : Barcodes))
                        (onTimes info) (offTimes info)
                        ((lastSample : ℚ) / info.sampling_rate)) 0 info.sampling_rate).2
              start_time := ((fun (_ : Barcodes) (_ : Barcodes) (_ : Nat) (_ : ℚ) =>
                      (FVal.finite 2, FVal.nan)) ⟨[], []⟩
                      ((fun (_ : List ℚ) (_ : List ℚ) (_ : ℚ) => (⟨[], []⟩ : Barcodes))
                        (onTimes info) (offTimes info)
                        ((lastSample : ℚ) / info.sampling_rate)) 0 info.sampling_rate).1.neg }) :=
  C6_sync_reconciliation (fun _ _ _ => ⟨[], []⟩)
    (fun _ _ _ _ => (FVal.finite 2, FVal.nan)) ⟨[], []⟩
    ([⟨⟨"ProbeA", "TTL_1", none, [5], [1]⟩, 5, 30000⟩])
    (by intro info hinfo
        rcases List.mem_singleton.mp hinfo with rfl
        simp)

/-! ### Lemmas for the filtered path enumerator -/

theorem filteredNodesLoop_spec (fs : List FPath) (sizeFn : FPath → Nat)
    (nodes : List FPath) (result : List (FPath × FPath))
    (hok : filteredNodesLoop fs sizeFn nodes = Except.ok result) :
    ∀ pr ∈ result, ∃ node, node ∈ nodes ∧ ∃ pairs,
      filteredUnderNode fs sizeFn node = Except.ok pairs ∧ pr ∈ pairs := by
  induction nodes generalizing result with
  | nil =>
    injection hok with hok
    subst hok
    intro pr hpr
    cases hpr
  | cons node rest ih =>
    simp only [filteredNodesLoop] at hok
    cases h1 : filteredUnderNode fs sizeFn node with
    | error e => rw [h1] at hok; cases hok
    | ok pairs =>
      rw [h1] at hok
      cases h2 : filteredNodesLoop fs sizeFn rest with
      | error e => rw [h2] at hok; cases hok
      | ok more =>
        rw [h2] at hok
        injection hok with hok
        subst hok
        intro pr hpr
        rcases List.mem_append.mp hpr with hl | hr
        · exact ⟨node, List.mem_cons_self _ _, pairs, h1, hl⟩
        · obtain ⟨n', hn', pairs', hp', hm'⟩ := ih more h2 pr hr
          exact ⟨n', List.mem_cons_of_mem _ hn', pairs', hp', hm'⟩

theorem filteredUnderNode_spec (fs : List FPath) (sizeFn : FPath → Nat)
    (node : FPath) (pairs : List (FPath × FPath))
    (hok : filteredUnderNode fs sizeFn node = Except.ok pairs) :
    ∀ pr ∈ pairs, pr.1 ∈ fs ∧ isStrictDescendant node pr.1 = true
      ∧ pr.2 = pr.1.drop (node.length - 1)
      ∧ ∀ d ∈ superfluousDirsOf fs sizeFn node, ¬(d <+: pr.1 ∧ d ≠ pr.1) := by
  simp only [filteredUnderNode] at hok
  by_cases hemp : (oebinsUnder fs sizeFn node).isEmpty = true
  · rw [if_pos hemp] at hok; cases hok
  · rw [if_neg hemp] at hok
    injection hok with hok
    subst hok
    intro pr hpr
    obtain ⟨p, hp, hpr⟩ := List.mem_map.mp hpr
    obtain ⟨hp1, hp2⟩ := List.mem_filter.mp hp
    obtain ⟨hp0, hp3⟩ := List.mem_filter.mp hp1
    subst hpr
    refine ⟨hp0, hp3, rfl, ?_⟩
    intro d hd ⟨hdpre, hdne⟩
    rw [Bool.not_eq_true'] at hp2
    have : isSuperfluousPath (superfluousDirsOf fs sizeFn node) p = true := by
      apply List.any_eq_true.mpr
      refine ⟨d, hd, ?_⟩
      rw [Bool.and_eq_true]
      exact ⟨List.isPrefixOf_iff_prefix.mpr hdpre, decide_eq_true hdne⟩
    rw [hp2] at this
    cases this

theorem drop_headD_of_prefix (node a : FPath) (hne : node ≠ [])
    (hpre : node <+: a) :
    (a.drop (node.length - 1)).headD emptyStr = node.getLastD emptyStr := by
  obtain ⟨t, rfl⟩ := hpre
  obtain ⟨n, x, hsplit⟩ : ∃ n x, node = n ++ [x] := by
    refine ⟨node.dropLast, node.getLast hne, ?_⟩
    exact (List.dropLast_append_getLast hne).symm
  subst hsplit
  rw [List.length_append, List.length_singleton, Nat.add_sub_cancel,
    List.append_assoc, List.drop_left, List.getLastD_concat]
  rfl

/-- C8: every pair yielded by the kept-path enumerator consists of an
absolute path strictly below some record node of the tree together with
that path made relative to the record node's parent — so the relative
path always begins with the record node folder's name — and no yielded
absolute path lies below a superfluous recording dir of that node. -/
theorem C8_filtered_paths_relative_to_record_node_parents
    (fs : List FPath) (sizeFn : FPath → Nat) (toplevel : FPath)
    (result : List (FPath × FPath))
    (hok : get_filtered_ephys_paths_relative_to_record_node_parents fs sizeFn toplevel
      = Except.ok result) :
    ∀ pr ∈ result, ∃ node,
      node ∈ fs ∧ isStrictDescendant toplevel node = true ∧ isRecordNode node = true
      ∧ node <+: pr.1 ∧ node ≠ pr.1
      ∧ pr.2 = pr.1.drop (node.length - 1)
      ∧ pr.2.headD emptyStr = node.getLastD emptyStr
      ∧ ∀ d ∈ superfluousDirsOf fs sizeFn node, ¬(d <+: pr.1 ∧ d ≠ pr.1) := by
  intro pr hpr
  obtain ⟨node, hnode, pairs, hpairs, hmem⟩ :=
    filteredNodesLoop_spec fs sizeFn _ result hok pr hpr
  obtain ⟨hnfs, hncond⟩ := List.mem_filter.mp hnode
  rw [Bool.and_eq_true] at hncond
  obtain ⟨hp1, hp2, hp3, hp4⟩ := filteredUnderNode_spec fs sizeFn node pairs hpairs pr hmem
  rw [isStrictDescendant, Bool.and_eq_true] at hp2
  have hpre : node <+: pr.1 := List.isPrefixOf_iff_prefix.mp hp2.1
  have hne : pr.1 ≠ node := of_decide_eq_true hp2.2
  have hnodene : node ≠ [] := by
    intro hcontra
    subst hcontra
    rw [show isRecordNode ([] : FPath) = false from rfl] at hncond
    cases hncond.2
  refine ⟨node, hnfs, hncond.1, hncond.2, hpre, fun h => hne h.symm, hp3, ?_, hp4⟩
  rw [hp3]
  exact drop_headD_of_prefix node pr.1 hnodene hpre

/-- Witness for C8: a record node with a large `recording1` and a small
superfluous `recording2`; `recording2`'s contents are excluded, and
every kept pair's relative path starts with `Record Node 101`. -/
theorem C8_filtered_paths_witness :
    ∃ node,
      node ∈ [(["top", "Record Node 101"] : FPath),
              ["top", "Record Node 101", "recording1"],
              ["top", "Record Node 101", "recording1", "structure.oebin"],
              ["top", "Record Node 101", "recording1", "continuous.dat"],
              ["top", "Record Node 101", "recording2"],
              ["top", "Record Node 101", "recording2", "structure.oebin"]]
      ∧ isStrictDescendant ["top"] node = true ∧ isRecordNode node = true
      ∧ node <+: ((["top", "Record Node 101", "recording1", "continuous.dat"] : FPath),
          (["Record Node 101", "recording1", "continuous.dat"] : FPath)).1
      ∧ node ≠ ((["top", "Record Node 101", "recording1", "continuous.dat"] : FPath),
          (["Record Node 101", "recording1", "continuous.dat"] : FPath)).1
      ∧ ((["top", "Record Node 101", "recording1", "continuous.dat"] : FPath),
          (["Record Node 101", "recording1", "continuous.dat"] : FPath)).2
        = ((["top", "Record Node 101", "recording1", "continuous.dat"] : FPath),
          (["Record Node 101", "recording1", "continuous.dat"] : FPath)).1.drop
            (node.length - 1)
      ∧ ((["top", "Record Node 101", "recording1", "continuous.dat"] : FPath),
          (["Record Node 101", "recording1", "continuous.dat"] : FPath)).2.headD emptyStr
        = node.getLastD emptyStr
      ∧ ∀ d ∈ superfluousDirsOf
          [(["top", "Record Node 101"] : FPath),
           ["top", "Record Node 101", "recording1"],
           ["top", "Record Node 101", "recording1", "structure.oebin"],
           ["top", "Record Node 101", "recording1", "continuous.dat"],
           ["top", "Record Node 101", "recording2"],
           ["top", "Record Node 101", "recording2", "structure.oebin"]]
          (fun p => if p = ["top", "Record Node 101", "recording1"] then 100 else 1)
          node,
        ¬(d <+: ((["top", "Record Node 101", "recording1", "continuous.dat"] : FPath),
            (["Record Node 101", "recording1", "continuous.dat"] : FPath)).1
          ∧ d ≠ ((["top", "Record Node 101", "recording1", "continuous.dat"] : FPath),
            (["Record Node 101", "recording1", "continuous.dat"] : FPath)).1) :=
  C8_filtered_paths_relative_to_record_node_parents
    [(["top", "Record Node 101"] : FPath),
     ["top", "Record Node 101", "recording1"],
     ["top", "Record Node 101", "recording1", "structure.oebin"],
     ["top", "Record Node 101", "recording1", "continuous.dat"],
     ["top", "Record Node 101", "recording2"],
     ["top", "Record Node 101", "recording2", "structure.oebin"]]
    (fun p => if p = ["top", "Record Node 101", "recording1"] then 100 else 1)
    ["top"] _ rfl
    ((["top", "Record Node 101", "recording1", "continuous.dat"] : FPath),
     (["Record Node 101", "recording1", "continuous.dat"] : FPath))
    (by decide)

/-! ### Lemmas for `validate_recording_folder` -/

/-- C9: `validate_recording_folder` returns normally exactly when every
continuous-stream descriptor of the manifest resolves to a device
(first-yield of the PXI stream filtered by the stripped folder name)
that, when a reference clock is supplied, reconciles without error; a
descriptor with no resolvable device fails with an AssertionError-class
`deviceNotFound` naming the stripped device name and the recording
path, and a resolved device whose reconciliation raises fails with
`syncValidationFailed` naming that device. -/
theorem C9_validate_recording_folder
    (recordingPath : String) (env : List PXIDevEnv) (sync : Bool)
    (reconcile : EphysTimingInfoOnPXI → Except Unit Unit) :
    (∀ descs : List Desc,
      validate_recording_folder recordingPath env descs sync reconcile = Except.ok () ↔
      ∀ device ∈ descs, ∃ info,
        firstPXI env (some (deviceNameOf device)) = Except.ok (some info)
        ∧ (sync = true → reconcile info = Except.ok ()))
    ∧ (∀ (pre : List Desc) (d : Desc) (post : List Desc),
        (∀ device ∈ pre, ∃ info,
          firstPXI env (some (deviceNameOf device)) = Except.ok (some info)
          ∧ (sync = true → reconcile info = Except.ok ())) →
        (firstPXI env (some (deviceNameOf d)) = Except.ok none →
          validate_recording_folder recordingPath env (pre ++ d :: post) sync reconcile
            = Except.error (ValidationError.deviceNotFound (deviceNameOf d) recordingPath))
        ∧ (∀ info, firstPXI env (some (deviceNameOf d)) = Except.ok (some info) →
            sync = true → reconcile info = Except.error () →
            validate_recording_folder recordingPath env (pre ++ d :: post) sync reconcile
              = Except.error (ValidationError.syncValidationFailed info.device.name))) := by
  constructor
  · intro descs
    induction descs with
    | nil =>
      simp only [validate_recording_folder]
      constructor
      · intro _ device hdev
        cases hdev
      · intro _
        trivial
    | cons device rest ih =>
      simp only [validate_recording_folder]
      cases hfp : firstPXI env (some (deviceNameOf device)) with
      | error e =>
        constructor
        · intro h
          cases h
        · intro h
          obtain ⟨info, hinfo, _⟩ := h device (List.mem_cons_self _ _)
          rw [hfp] at hinfo
          cases hinfo
      | ok o =>
        cases o with
        | none =>
          constructor
          · intro h
            cases h
          · intro h
            obtain ⟨info, hinfo, _⟩ := h device (List.mem_cons_self _ _)
            rw [hfp] at hinfo
            cases hinfo
        | some info =>
          dsimp only
          by_cases hs : sync = true
          · rw [if_pos hs]
            cases hr : reconcile info with
            | error e =>
              dsimp only
              constructor
              · intro h
                cases h
              · intro h
                obtain ⟨info', hinfo', hrec'⟩ := h device (List.mem_cons_self _ _)
                rw [hfp] at hinfo'
                injection hinfo' with hinfo'
                injection hinfo' with hinfo'
                subst hinfo'
                rw [hr] at hrec'
                cases hrec' hs
            | ok u =>
              dsimp only
              rw [ih]
              constructor
              · intro h device' hdev'
                rcases List.mem_cons.mp hdev' with rfl | hmem
                · refine ⟨info, hfp, fun _ => ?_⟩
                  rw [hr]
                · exact h device' hmem
              · intro h device' hdev'
                exact h device' (List.mem_cons_of_mem _ hdev')
          · rw [if_neg hs]
            rw [ih]
            constructor
            · intro h device' hdev'
              rcases List.mem_cons.mp hdev' with rfl | hmem
              · exact ⟨info, hfp, fun hc => absurd hc hs⟩
              · exact h device' hmem
            · intro h device' hdev'
              exact h device' (List.mem_cons_of_mem _ hdev')
  · intro pre d post
    induction pre with
    | nil =>
      intro _
      constructor
      · intro hfp
        simp only [List.nil_append, validate_recording_folder, hfp]
      · intro info hfp hs hr
        subst hs
        simp only [List.nil_append, validate_recording_folder, hfp, if_true, hr]
    | cons p pre' ih =>
      intro hgood
      have hgood' := fun x hx => hgood x (List.mem_cons_of_mem _ hx)
      obtain ⟨info₀, hfp₀, hrec₀⟩ := hgood p (List.mem_cons_self _ _)
      have step : validate_recording_folder recordingPath env
          ((p :: pre') ++ d :: post) sync reconcile
          = validate_recording_folder recordingPath env
            (pre' ++ d :: post) sync reconcile := by
        rw [List.cons_append]
        simp only [validate_recording_folder, hfp₀]
        cases hs : sync with
        | false => simp
        | true =>
          simp only [if_true, hrec₀ hs]
      constructor
      · intro hfp
        rw [step]
        exact (ih hgood').1 hfp
      · intro info hfp hs hr
        rw [step]
        exact (ih hgood').2 info hfp hs hr

/-- Witness for C9: an environment with a single complete ProbeA device;
the manifest naming `ProbeA/` validates, and a manifest naming `ProbeX`
fails with the device-not-found assertion naming the stripped device
name and the recording path. -/
theorem C9_validate_recording_folder_witness :
    validate_recording_folder "rec" ([⟨"ProbeA", 10, 30000, true, (["TTL_1"]), 10,
        [3], [1], none⟩]) ([⟨"ProbeA/", 0⟩]) true (fun _ => Except.ok ())
      = Except.ok ()
    ∧ validate_recording_folder "rec" ([⟨"ProbeA", 10, 30000, true, (["TTL_1"]), 10,
        [3], [1], none⟩]) ([⟨"ProbeX", 0⟩]) true (fun _ => Except.ok ())
      = Except.error (ValidationError.deviceNotFound "ProbeX" "rec") :=
  ⟨((C9_validate_recording_folder "rec"
      ([⟨"ProbeA", 10, 30000, true, (["TTL_1"]), 10, [3], [1], none⟩]) true
      (fun _ => Except.ok ())).1 ([⟨"ProbeA/", 0⟩])).mpr
    (fun device hdev => ⟨mkPXIEntry ⟨"ProbeA", 10, 30000, true, (["TTL_1"]), 10,
        [3], [1], none⟩,
      by rcases List.mem_singleton.mp hdev with rfl; rfl,
      fun _ => rfl⟩),
   ((C9_validate_recording_folder "rec"
      ([⟨"ProbeA", 10, 30000, true, (["TTL_1"]), 10, [3], [1], none⟩]) true
      (fun _ => Except.ok ())).2 [] ⟨"ProbeX", 0⟩ []
      (fun device hdev => absurd hdev (List.not_mem_nil _))).1 rfl⟩

/-! ### Lemmas for `get_raw_ephys_subfolders` -/

theorem pathLe_total (a b : FPath) : pathLe a b ∨ pathLe b a := le_total _ _

theorem pathLe_trans {a b c : FPath} (h1 : pathLe a b) (h2 : pathLe b c) :
    pathLe a c := le_trans h1 h2

theorem collectRootsAux_skipped (L : List FPath)
    (hall : ∀ f ∈ L, isSkippedDat f = true) :
    collectRootsAux L = Except.ok [] := by
  induction L with
  | nil => rfl
  | cons f rest ih =>
    simp only [collectRootsAux, hall f (List.mem_cons_self _ _), if_true]
    exact ih (fun x hx => hall x (List.mem_cons_of_mem _ hx))

/-- C10: `get_raw_ephys_subfolders` always returns a duplicate-free list
sorted by path string; with a `min_size_gb` supplied every returned root
has total size strictly below `min_size_gb * 1024 ** 3`; and when every
`continuous.dat` under the path lies in a sorted/extracted/curated
folder, it returns an empty tuple rather than raising. -/
theorem C10_raw_ephys_subfolders
    (fs : List FPath) (sizeFn : FPath → Nat) (path : FPath) (m : ℚ) :
    (∀ (mg : Option ℚ) (l : List FPath),
        get_raw_ephys_subfolders fs sizeFn path mg = Except.ok l →
        l.Nodup ∧ l.Sorted pathLe)
    ∧ (∀ l, get_raw_ephys_subfolders fs sizeFn path (some m) = Except.ok l →
        ∀ p ∈ l, (sizeFn p : ℚ) < m * 1024 ^ 3)
    ∧ ((∀ f ∈ fs, isStrictDescendant path f = true →
          f.getLastD emptyStr = datName → isSkippedDat f = true) →
        get_raw_ephys_subfolders fs sizeFn path none = Except.ok []) := by
  haveI : IsTotal FPath pathLe := ⟨pathLe_total⟩
  haveI : IsTrans FPath pathLe := ⟨fun a b c => pathLe_trans⟩
  refine ⟨?_, ?_, ?_⟩
  · intro mg l hok
    simp only [get_raw_ephys_subfolders] at hok
    cases hc : collectRootsAux (datFilesUnder fs path) with
    | error e => rw [hc] at hok; cases hok
    | ok roots =>
      rw [hc] at hok
      dsimp only at hok
      injection hok with hok
      subst hok
      have hkept : (match mg with
          | none => roots.dedup
          | some m => roots.dedup.filter
              (fun p => decide ((sizeFn p : ℚ) < m * 1024 ^ 3))).Nodup := by
        cases mg with
        | none => exact roots.nodup_dedup
        | some m => exact (roots.nodup_dedup).filter _
      constructor
      · exact ((List.perm_insertionSort pathLe _).nodup_iff).mpr hkept
      · exact List.sorted_insertionSort pathLe _
  · intro l hok p hp
    simp only [get_raw_ephys_subfolders] at hok
    cases hc : collectRootsAux (datFilesUnder fs path) with
    | error e => rw [hc] at hok; cases hok
    | ok roots =>
      rw [hc] at hok
      dsimp only at hok
      injection hok with hok
      subst hok
      have hp' := (List.perm_insertionSort pathLe _).mem_iff.mp hp
      exact of_decide_eq_true (List.mem_filter.mp hp').2
  · intro hall
    have hskip : collectRootsAux (datFilesUnder fs path) = Except.ok [] := by
      apply collectRootsAux_skipped
      intro f hf
      obtain ⟨hfs, hcond⟩ := List.mem_filter.mp hf
      rw [Bool.and_eq_true] at hcond
      exact hall f hfs hcond.1 (of_decide_eq_true hcond.2)
    simp only [get_raw_ephys_subfolders, hskip]
    rfl

/-- Witness for C10: two `continuous.dat` files under the same
`Record Node 5` root deduplicate to one sorted root; a third in a
`sorted` folder is skipped; a tree with only skipped files gives an
empty result. -/
theorem C10_raw_ephys_subfolders_witness :
    (([(["A"] : FPath)]).Nodup ∧ ([(["A"] : FPath)]).Sorted pathLe)
    ∧ (∀ p ∈ [(["A"] : FPath)], ((7 : Nat) : ℚ) < 1 * 1024 ^ 3)
    ∧ get_raw_ephys_subfolders ([["A", "sorted", "continuous.dat"]])
        (fun _ => 7) [] none = Except.ok [] :=
  ⟨(C10_raw_ephys_subfolders
      ([["A", "Record Node 5", "continuous.dat"],
        ["A", "Record Node 5", "probeB", "continuous.dat"],
        ["A", "sorted", "Record Node 5", "continuous.dat"]])
      (fun _ => 7) [] 1).1 none ([["A"]]) (by rfl),
   (C10_raw_ephys_subfolders
      ([["A", "Record Node 5", "continuous.dat"],
        ["A", "Record Node 5", "probeB", "continuous.dat"],
        ["A", "sorted", "Record Node 5", "continuous.dat"]])
      (fun _ => 7) [] 1).2.1 ([["A"]]) (by with_unfolding_all rfl),
   (C10_raw_ephys_subfolders ([["A", "sorted", "continuous.dat"]])
      (fun _ => 7) [] 1).2.2 (by decide)⟩

end NpcEphys
